import Mathlib

set_option autoImplicit false

/-! Verification development for the `make-service` HTTP request-building
    library (TypeScript sources under `src/`).  The definitions below are a
    shallow embedding of the library's request/response pipeline: header
    merging, URL composition, body normalization, response decoding,
    key-case transforms and service dispatch.  Each section names the
    source function it embeds. -/

namespace MakeService

/-- ASCII uppercase letter test, the regex class `[A-Z]`. -/
def isUpperCh (c : Char) : Bool :=
  65 ≤ c.toNat && c.toNat ≤ 90

/-- ASCII lowercase letter test, the regex class `[a-z]`. -/
def isLowerCh (c : Char) : Bool :=
  97 ≤ c.toNat && c.toNat ≤ 122

/-- ASCII digit test, the regex class `[0-9]`. -/
def isDigitCh (c : Char) : Bool :=
  48 ≤ c.toNat && c.toNat ≤ 57

/-- Word character test, the regex class `\w` used by `\b`. -/
def isWordCh (c : Char) : Bool :=
  isUpperCh c || isLowerCh c || isDigitCh c || c = '_'

/-- ASCII lowercasing of a single character, as performed byte-wise on
    header names by the WHATWG `Headers` machinery and by
    `String.prototype.toLowerCase` on the ASCII range. -/
def lowerCh (c : Char) : Char :=
  if isUpperCh c then Char.ofNat (c.toNat + 32) else c

/-- ASCII lowercasing of a string. -/
def lowerStr (s : String) : String :=
  String.mk (s.toList.map lowerCh)

/-- One header source entry: a header name and its value, where `none`
    models a JavaScript `undefined` value in a record or entries array. -/
abbrev HeaderEntry := String × Option String

/-- One header source (`HeadersInit`): an ordered list of entries.  A plain
    record, an entries array and a `Headers` instance all present
    themselves to the `Headers` constructor as such a list. -/
abbrev HeaderSource := List HeaderEntry

/-- Value conversion performed by the `Headers` constructor: every value is
    converted to a string, so an `undefined` value becomes the literal
    string "undefined". -/
def headerValueStr : Option String → String
  | none => "undefined"
  | some v => v

/-- Appending one name/value pair to a WHATWG header list (the `Headers`
    constructor appends each entry): the name is matched case-insensitively
    (names here are already lowercased) and a repeated name combines the
    values with ", ". -/
def headersAppend (hs : List (String × String)) (k v : String) :
    List (String × String) :=
  if hs.any (fun p => p.1 = k) then
    hs.map (fun p => if p.1 = k then (p.1, p.2 ++ ", " ++ v) else p)
  else hs ++ [(k, v)]

/-- Model of `new Headers(entry)` as its observable entries list: names
    lowercased, values stringified, duplicate names combined.  (The real
    iterator also sorts entries by name; no theorem below depends on entry
    order, only on per-name lookups, so the order is left as insertion
    order.) -/
def headersOf (source : HeaderSource) : List (String × String) :=
  source.foldl (fun hs kv => headersAppend hs (lowerStr kv.1) (headerValueStr kv.2)) []

/-- Model of `Map.prototype.set` on an association list with unique keys:
    replace the value of an existing key in place, otherwise append. -/
def setEntry : List (String × String) → String → String → List (String × String)
  | [], k, v => [(k, v)]
  | p :: rest, k, v => if p.1 = k then (k, v) :: rest else p :: setEntry rest k v

/-- Model of `Map.prototype.delete` on an association list. -/
def deleteEntry (m : List (String × String)) (k : String) : List (String × String) :=
  m.filter (fun p => p.1 != k)

/-- One step of the `mergeHeaders` loop body (from `src/src/internals.ts`,
    `mergeHeaders`): a value equal to the deletion sentinel removes the
    entry, any other value overwrites it. -/
def mergeStep (m : List (String × String)) (kv : String × String) :
    List (String × String) :=
  if kv.2 = "undefined" then deleteEntry m kv.1 else setEntry m kv.1 kv.2

/-- Embedding of `mergeHeaders` (`src/src/internals.ts`, lines 93-115; the
    same function appears verbatim in `src/src/index.ts`): each source is
    normalized through the `Headers` constructor and folded into a map,
    deleting on the sentinel and setting otherwise.  The final
    `new Headers(Array.from(result.entries()))` re-wrap is observationally
    the identity on the already lowercased, duplicate-free map entries, so
    the result is modelled by the map entries themselves. -/
def mergeHeaders (sources : List HeaderSource) : List (String × String) :=
  sources.foldl (fun result entry => (headersOf entry).foldl mergeStep result) []

/-- First value stored under a key in an association list. -/
def findVal (n : String) : List (String × String) → Option String
  | [] => none
  | p :: rest => if p.1 = n then some p.2 else findVal n rest

/-- Model of `Headers.prototype.get`: the queried name is lowercased and
    looked up. -/
def headerGet (hs : List (String × String)) (n : String) : Option String :=
  findVal (lowerStr n) hs

/-- Specification-side reading of the merge, from the spec's words: scan
    the normalized entries left to right; the final value for a name is the
    last one written, where writing the sentinel value removes the name. -/
def lastWriteWins (n : String) : List (String × String) → Option String → Option String
  | [], acc => acc
  | kv :: rest, acc =>
      lastWriteWins n rest
        (if kv.1 = n then (if kv.2 = "undefined" then none else some kv.2) else acc)

theorem findVal_setEntry (n k v : String) (m : List (String × String)) :
    findVal n (setEntry m k v) = if k = n then some v else findVal n m := by
  induction m with
  | nil =>
      by_cases h : k = n <;> simp [setEntry, findVal, h]
  | cons p rest ih =>
      simp only [setEntry]
      by_cases hp : p.1 = k
      · rw [if_pos hp]
        by_cases h : k = n
        · simp [findVal, h]
        · have hn : ¬p.1 = n := fun hc => h (hp ▸ hc)
          simp [findVal, h, hn]
      · rw [if_neg hp]
        by_cases hn : p.1 = n
        · have h : ¬k = n := fun hc => hp (hn.trans hc.symm)
          simp [findVal, hn, h]
        · simp only [findVal, if_neg hn, ih]

theorem findVal_deleteEntry (n k : String) (m : List (String × String)) :
    findVal n (deleteEntry m k) = if k = n then none else findVal n m := by
  induction m with
  | nil => by_cases h : k = n <;> simp [deleteEntry, findVal, h]
  | cons p rest ih =>
      simp only [deleteEntry, List.filter_cons] at ih ⊢
      by_cases hp : p.1 = k
      · have hb : (p.1 != k) = false := by simp [hp]
        rw [hb]
        simp only [Bool.false_eq_true, if_false, ih]
        by_cases h : k = n
        · simp [h]
        · have hn : ¬p.1 = n := fun hc => h (hp ▸ hc)
          simp [findVal, h, hn]
      · have hb : (p.1 != k) = true := by simp [hp]
        rw [hb]
        simp only [if_true]
        by_cases hn : p.1 = n
        · have h : ¬k = n := fun hc => hp (hn.trans hc.symm)
          simp [findVal, hn, h]
        · simp only [findVal, if_neg hn, ih]

theorem findVal_foldl_mergeStep (entries : List (String × String))
    (m : List (String × String)) (n : String) :
    findVal n (entries.foldl mergeStep m) = lastWriteWins n entries (findVal n m) := by
  induction entries generalizing m with
  | nil => simp [lastWriteWins]
  | cons kv rest ih =>
      simp only [List.foldl_cons, lastWriteWins]
      rw [ih]
      congr 1
      by_cases hs : kv.2 = "undefined"
      · simp [mergeStep, hs, findVal_deleteEntry]
      · simp [mergeStep, hs, findVal_setEntry]

theorem foldl_mergeStep_flatten (ls : List (List (String × String)))
    (m : List (String × String)) :
    ls.foldl (fun r e => e.foldl mergeStep r) m = ls.flatten.foldl mergeStep m := by
  induction ls generalizing m with
  | nil => simp
  | cons e rest ih => simp [List.foldl_append, ih]

/-- The claim's two concrete examples plus the general law: `mergeHeaders`
    processes sources left to right with last-write-wins per
    case-insensitive name, and the deletion sentinel (an `undefined` value,
    or the literal string "undefined") removes the entry. -/
theorem c2_mergeHeaders_last_write_wins :
    (∀ (sources : List HeaderSource) (n : String),
        headerGet (mergeHeaders sources) n =
          lastWriteWins (lowerStr n) ((sources.map headersOf).flatten) none)
    ∧ headerGet (mergeHeaders [[("a", some "1")], [("a", some "2")]]) "a" = some "2"
    ∧ headerGet (mergeHeaders [[("a", some "1")], [("a", none)]]) "a" = none
    ∧ headerGet (mergeHeaders
        [[("Content-Type", some "text/html")], [("content-type", some "application/json")]])
        "Content-Type" = some "application/json" := by
  refine ⟨?_, by decide, by decide, by decide⟩
  intro sources n
  have h1 : mergeHeaders sources = ((sources.map headersOf).flatten).foldl mergeStep [] := by
    rw [← foldl_mergeStep_flatten, List.foldl_map]
    rfl
  rw [headerGet, h1, findVal_foldl_mergeStep]
  rfl

/-- JSON-like runtime values (the library's `JSONValue` type from
    `src/src/types.ts`, extended with `null` which the runtime also
    accepts).  Numbers are modelled as integers; all JSON numbers appearing
    in the claims are integral. -/
inductive JSONValue where
  | null : JSONValue
  | bool (b : Bool) : JSONValue
  | num (n : Int) : JSONValue
  | str (s : String) : JSONValue
  | arr (items : List JSONValue) : JSONValue
  | obj (fields : List (String × JSONValue)) : JSONValue

/-- Escape of one character inside a JSON string literal, as produced by
    `JSON.stringify`. -/
def jsonEscapeChar (c : Char) : List Char :=
  if c = '"' then ['\\', '"']
  else if c = '\\' then ['\\', '\\']
  else if c = '\n' then ['\\', 'n']
  else if c = '\r' then ['\\', 'r']
  else if c = '\t' then ['\\', 't']
  else if c.toNat = 8 then ['\\', 'b']
  else if c.toNat = 12 then ['\\', 'f']
  else if c.toNat < 32 then
    ['\\', 'u', '0', '0',
      (Nat.digitChar (c.toNat / 16)), (Nat.digitChar (c.toNat % 16))]
  else [c]

/-- JSON string literal with quotes and escapes, as `JSON.stringify`
    renders strings. -/
def jsonQuote (s : String) : String :=
  "\"" ++ String.mk ((s.toList.map jsonEscapeChar).flatten) ++ "\""

mutual

/-- Model of `JSON.stringify` on JSON-like values. -/
def jsonStringify : JSONValue → String
  | .null => "null"
  | .bool true => "true"
  | .bool false => "false"
  | .num n => toString n
  | .str s => jsonQuote s
  | .arr items => "[" ++ jsonStringifyList items ++ "]"
  | .obj fields => "\x7b" ++ jsonStringifyFields fields ++ "\x7d"

/-- Comma-separated rendering of array items. -/
def jsonStringifyList : List JSONValue → String
  | [] => ""
  | [t] => jsonStringify t
  | t :: rest => jsonStringify t ++ "," ++ jsonStringifyList rest

/-- Comma-separated rendering of object fields. -/
def jsonStringifyFields : List (String × JSONValue) → String
  | [] => ""
  | [kv] => jsonQuote kv.1 ++ ":" ++ jsonStringify kv.2
  | kv :: rest => jsonQuote kv.1 ++ ":" ++ jsonStringify kv.2 ++ "," ++ jsonStringifyFields rest

end

/-- Runtime body values accepted by `ensureStringBody`
    (`JSONValue | BodyInit | null | undefined`): JSON-like values plus the
    binary/transport payload categories, which are identified by an opaque
    tag so that "returned unchanged by reference" is expressible as
    equality. -/
inductive BodyInitValue where
  | undefinedValue : BodyInitValue
  | json (j : JSONValue) : BodyInitValue
  | blob (id : Nat) : BodyInitValue
  | readableStream (id : Nat) : BodyInitValue
  | formData (entries : List (String × String)) : BodyInitValue
  | arrayBuffer (id : Nat) : BodyInitValue
  | urlSearchParams (entries : List (String × String)) : BodyInitValue

/-- Embedding of `typeOf` (`src/src/internals.ts`, lines 142-163): the
    `Object.prototype.toString` tag of the value, lowercased. -/
def typeOf : BodyInitValue → String
  | .undefinedValue => "undefined"
  | .json .null => "null"
  | .json (.bool _) => "boolean"
  | .json (.num _) => "number"
  | .json (.str _) => "string"
  | .json (.arr _) => "array"
  | .json (.obj _) => "object"
  | .blob _ => "blob"
  | .readableStream _ => "readablestream"
  | .formData _ => "formdata"
  | .arrayBuffer _ => "arraybuffer"
  | .urlSearchParams _ => "urlsearchparams"

/-- Embedding of `ensureStringBody` (`src/src/internals.ts`, lines 63-74):
    absent and string bodies are returned as-is; values whose `typeOf` is
    number, boolean, array or object are JSON-stringified; every other
    category is returned unchanged. -/
def ensureStringBody (body : BodyInitValue) : BodyInitValue :=
  match body with
  | .undefinedValue => .undefinedValue
  | .json (.str s) => .json (.str s)
  | b =>
      if ["number", "boolean", "array", "object"].contains (typeOf b) then
        match b with
        | .json j => .json (.str (jsonStringify j))
        | other => other
      else b

/-- Claim C4: `ensureStringBody` is the identity on absent and string
    bodies, JSON-serializes exactly the number/boolean/array/object
    categories (for example `ensureStringBody {a:1} = "{\"a\":1}"` written
    with escaped braces), and passes every other body category through
    unchanged. -/
theorem c4_ensureStringBody :
    ensureStringBody .undefinedValue = .undefinedValue
    ∧ (∀ s : String, ensureStringBody (.json (.str s)) = .json (.str s))
    ∧ ensureStringBody (.json (.obj [("a", .num 1)])) = .json (.str "\x7b\"a\":1\x7d")
    ∧ (∀ n : Int, ensureStringBody (.json (.num n)) = .json (.str (jsonStringify (.num n))))
    ∧ (∀ b : Bool, ensureStringBody (.json (.bool b)) = .json (.str (jsonStringify (.bool b))))
    ∧ (∀ items : List JSONValue,
        ensureStringBody (.json (.arr items)) = .json (.str (jsonStringify (.arr items))))
    ∧ (∀ fields : List (String × JSONValue),
        ensureStringBody (.json (.obj fields)) = .json (.str (jsonStringify (.obj fields))))
    ∧ ensureStringBody (.json .null) = .json .null
    ∧ (∀ i : Nat, ensureStringBody (.blob i) = .blob i)
    ∧ (∀ i : Nat, ensureStringBody (.readableStream i) = .readableStream i)
    ∧ (∀ es : List (String × String), ensureStringBody (.formData es) = .formData es)
    ∧ (∀ i : Nat, ensureStringBody (.arrayBuffer i) = .arrayBuffer i)
    ∧ (∀ es : List (String × String),
        ensureStringBody (.urlSearchParams es) = .urlSearchParams es) := by
  refine ⟨rfl, fun s => rfl, rfl, fun n => rfl, ?_, fun items => rfl,
    fun fields => rfl, rfl, fun i => rfl, fun i => rfl, fun es => rfl,
    fun i => rfl, fun es => rfl⟩
  intro b
  cases b <;> rfl

theorem length_dropWhile_le (p : Char → Bool) (l : List Char) :
    (l.dropWhile p).length ≤ l.length := by
  induction l with
  | nil => simp
  | cons c rest ih =>
      by_cases h : p c
      · simp only [List.dropWhile_cons, h, if_true]
        exact Nat.le_succ_of_le ih
      · simp [List.dropWhile_cons, h]

/-- Character class `[^https?:]` of the slash-collapsing regex in
    `makeGetApiURL`: any character other than `h`, `t`, `p`, `s`, `?`
    and `:`. -/
def notSchemeCh (c : Char) : Bool :=
  !(c = 'h' || c = 't' || c = 'p' || c = 's' || c = '?' || c = ':')

/-- Embedding of `.replace(/([^https?:]\/)\/+/g, '$1')` from
    `makeGetApiURL` (`src/src/internals.ts`, line 83): scanning left to
    right, a character in the class followed by a slash and then one or
    more further slashes (taken greedily) is replaced by the character and
    a single slash, and scanning resumes after the consumed run.  The
    fuel argument (instantiated with the list length, which bounds the
    number of scan steps) only makes the recursion structural. -/
def collapseFuel : Nat → List Char → List Char
  | _, [] => []
  | 0, l => l
  | _ + 1, [c] => [c]
  | fuel + 1, c :: d :: rest =>
      if notSchemeCh c && d = '/' && rest.head? = some '/' then
        c :: '/' :: collapseFuel fuel (rest.dropWhile (fun x => x = '/'))
      else
        c :: collapseFuel fuel (d :: rest)

/-- String-level wrapper for the slash-collapsing replace. -/
def collapseSlashes (s : String) : String :=
  String.mk (collapseFuel s.toList.length s.toList)

/-- Hexadecimal digit (uppercase), as used by percent-encoding. -/
def hexDigitUpper (n : Nat) : Char :=
  if n < 10 then Char.ofNat (48 + n) else Char.ofNat (55 + n)

/-- UTF-8 byte sequence of a code point. -/
def utf8Bytes (n : Nat) : List Nat :=
  if n < 0x80 then [n]
  else if n < 0x800 then [0xC0 + n / 0x40, 0x80 + n % 0x40]
  else if n < 0x10000 then
    [0xE0 + n / 0x1000, 0x80 + (n / 0x40) % 0x40, 0x80 + n % 0x40]
  else
    [0xF0 + n / 0x40000, 0x80 + (n / 0x1000) % 0x40, 0x80 + (n / 0x40) % 0x40,
      0x80 + n % 0x40]

/-- Characters serialized verbatim by the `application/x-www-form-urlencoded`
    serializer used by `URLSearchParams`. -/
def isFormSafeCh (c : Char) : Bool :=
  (48 ≤ c.toNat && c.toNat ≤ 57) || (65 ≤ c.toNat && c.toNat ≤ 90)
    || (97 ≤ c.toNat && c.toNat ≤ 122)
    || c = '*' || c = '-' || c = '.' || c = '_'

/-- Percent-encoding of one character: safe characters kept, space becomes
    `+`, everything else percent-escaped byte-wise. -/
def formEncodeChar (c : Char) : List Char :=
  if isFormSafeCh c then [c]
  else if c = ' ' then ['+']
  else ((utf8Bytes c.toNat).map
    (fun b => ['%', hexDigitUpper (b / 16), hexDigitUpper (b % 16)])).flatten

/-- Percent-encoding of a whole string. -/
def formEncode (s : String) : String :=
  String.mk ((s.toList.map formEncodeChar).flatten)

/-- Value of a hexadecimal digit character. -/
def hexVal (c : Char) : Option Nat :=
  if 48 ≤ c.toNat && c.toNat ≤ 57 then some (c.toNat - 48)
  else if 65 ≤ c.toNat && c.toNat ≤ 70 then some (c.toNat - 55)
  else if 97 ≤ c.toNat && c.toNat ≤ 102 then some (c.toNat - 87)
  else none

/-- Percent-decoding to a byte sequence: `+` is a space, `%XX` is a byte,
    any other character contributes its UTF-8 bytes.  The fuel argument
    (instantiated with the list length) only makes the recursion
    structural. -/
def formDecodeBytesFuel : Nat → List Char → List Nat
  | _, [] => []
  | 0, _ => []
  | fuel + 1, '%' :: h1 :: h2 :: rest =>
      match hexVal h1, hexVal h2 with
      | some a, some b => (16 * a + b) :: formDecodeBytesFuel fuel rest
      | _, _ => utf8Bytes 37 ++ formDecodeBytesFuel fuel (h1 :: h2 :: rest)
  | fuel + 1, '+' :: rest => 32 :: formDecodeBytesFuel fuel rest
  | fuel + 1, c :: rest => utf8Bytes c.toNat ++ formDecodeBytesFuel fuel rest

/-- Percent-decoding of a character list to bytes. -/
def formDecodeBytes (l : List Char) : List Nat :=
  formDecodeBytesFuel l.length l

/-- Whether a byte is a UTF-8 continuation byte, and its payload. -/
def utf8ContVal (b : Nat) : Option Nat :=
  if 0x80 ≤ b && b < 0xC0 then some (b - 0x80) else none

/-- Decoding of one UTF-8 sequence starting with byte `b`: the decoded
    character and the remaining bytes.  A malformed sequence yields the
    replacement character U+FFFD, as in the WHATWG decoder. -/
def utf8DecodeOne (b : Nat) (rest : List Nat) : Char × List Nat :=
  if b < 0x80 then (Char.ofNat b, rest)
  else if b < 0xC0 then ('�', rest)
  else if b < 0xE0 then
    match rest with
    | b2 :: rest2 =>
        match utf8ContVal b2 with
        | some v2 => (Char.ofNat ((b - 0xC0) * 0x40 + v2), rest2)
        | none => ('�', b2 :: rest2)
    | [] => ('�', [])
  else if b < 0xF0 then
    match rest with
    | b2 :: b3 :: rest3 =>
        match utf8ContVal b2, utf8ContVal b3 with
        | some v2, some v3 =>
            (Char.ofNat ((b - 0xE0) * 0x1000 + v2 * 0x40 + v3), rest3)
        | _, _ => ('�', b2 :: b3 :: rest3)
    | other => ('�', other)
  else
    match rest with
    | b2 :: b3 :: b4 :: rest4 =>
        match utf8ContVal b2, utf8ContVal b3, utf8ContVal b4 with
        | some v2, some v3, some v4 =>
            (Char.ofNat ((b - 0xF0) * 0x40000 + v2 * 0x1000 + v3 * 0x40 + v4), rest4)
        | _, _, _ => ('�', b2 :: b3 :: b4 :: rest4)
    | other => ('�', other)

/-- UTF-8 decoding of a byte sequence.  The fuel argument (instantiated
    with the list length, which bounds the number of decoded characters)
    only makes the recursion structural. -/
def utf8DecodeFuel : Nat → List Nat → List Char
  | _, [] => []
  | 0, _ => []
  | fuel + 1, b :: rest =>
      let r := utf8DecodeOne b rest
      r.1 :: utf8DecodeFuel fuel r.2

/-- UTF-8 decoding of a byte list. -/
def utf8DecodeList (l : List Nat) : List Char :=
  utf8DecodeFuel l.length l

/-- Percent-decoding of a string component. -/
def formDecode (s : String) : String :=
  String.mk (utf8DecodeList (formDecodeBytes s.toList))

/-- Splitting a character list on a separator character. -/
def splitOnCh (sep : Char) : List Char → List (List Char)
  | [] => [[]]
  | c :: rest =>
      let r := splitOnCh sep rest
      if c = sep then [] :: r
      else
        match r with
        | [] => [[c]]
        | w :: ws => (c :: w) :: ws

/-- Splitting one `key=value` segment at the first `=`; a segment with no
    `=` is a key with empty value. -/
def splitFirstEq (cs : List Char) : List Char × List Char :=
  match cs with
  | [] => ([], [])
  | '=' :: rest => ([], rest)
  | c :: rest =>
      let r := splitFirstEq rest
      (c :: r.1, r.2)

/-- Parsing a query string into decoded name/value pairs, as the
    `URLSearchParams` constructor does: an optional leading `?` is
    stripped, the string splits on `&`, empty segments are skipped, each
    segment splits at its first `=`, and both halves are form-decoded. -/
def parseQueryString (s : String) : List (String × String) :=
  let cs := match s.toList with
    | '?' :: rest => rest
    | other => other
  ((splitOnCh '&' cs).filter (fun seg => !seg.isEmpty)).map
    (fun seg =>
      let kv := splitFirstEq seg
      (formDecode (String.mk kv.1), formDecode (String.mk kv.2)))

/-- Query input (`SearchParams` in `src/src/types.ts`): a plain record, an
    ordered list of pairs, a pre-encoded query string, or a
    `URLSearchParams` instance. -/
inductive SearchParams where
  | record (pairs : List (String × String)) : SearchParams
  | pairs (entries : List (String × String)) : SearchParams
  | qs (s : String) : SearchParams
  | usp (entries : List (String × String)) : SearchParams

/-- Name/value pair list held by `new URLSearchParams(searchParams)`. -/
def searchPairs : SearchParams → List (String × String)
  | .record ps => ps
  | .pairs es => es
  | .qs s => parseQueryString s
  | .usp es => es

/-- Serialization `String(new URLSearchParams(searchParams))`:
    percent-encoded pairs joined with `&`. -/
def serializeSearchParams (sp : SearchParams) : String :=
  String.intercalate "&"
    ((searchPairs sp).map (fun kv => formEncode kv.1 ++ "=" ++ formEncode kv.2))

/-- Model of a `URL` instance: the components other than the query are
    opaque strings; the query is the mutable `searchParams` pair list. -/
structure URLModel where
  scheme : String
  host : String
  port : String
  pathname : String
  hash : String
  searchParams : List (String × String)

/-- Argument type of the URL helpers: a string or a `URL` instance. -/
inductive UrlInput where
  | str (s : String) : UrlInput
  | url (u : URLModel) : UrlInput

/-- Model of `URLSearchParams.prototype.set`: replace the value of the
    first entry with the given name, removing any further entries with
    that name; append if the name is absent. -/
def uspSet : List (String × String) → String → String → List (String × String)
  | [], k, v => [(k, v)]
  | p :: rest, k, v =>
      if p.1 = k then (k, v) :: rest.filter (fun q => q.1 != k)
      else p :: uspSet rest k v

/-- JavaScript falsiness of a present query argument, as tested by the
    guard `if (!searchParams) return url`: among the `SearchParams`
    representations only the empty pre-encoded string is falsy — records,
    entry arrays and `URLSearchParams` instances are objects and therefore
    truthy even when empty. -/
def falsyQuery : SearchParams → Bool
  | .qs s => s == ""
  | _ => false

/-- Embedding of `addQueryToURL` (`src/src/internals.ts`, lines 41-57): the
    guard `if (!searchParams) return url` returns the url unchanged when
    the query is absent or falsy (the empty pre-encoded string); otherwise,
    for a string url the serialized pairs are appended after `&` if the url
    already contains `?` and after `?` otherwise, and for a `URL` instance
    each pair is written with set-semantics into its `searchParams`. -/
def addQueryToURL (url : UrlInput) (searchParams : Option SearchParams) : UrlInput :=
  match searchParams with
  | none => url
  | some sp =>
      if falsyQuery sp then url
      else
        match url with
        | .str s =>
            .str (s ++ (if s.toList.contains '?' then "&" else "?") ++ serializeSearchParams sp)
        | .url u =>
            .url { u with
              searchParams :=
                (searchPairs sp).foldl (fun l kv => uspSet l kv.1 kv.2) u.searchParams }

/-- Embedding of `makeGetApiURL` (`src/src/internals.ts`, lines 80-86): the
    base and path are joined with a slash, runs of slashes are collapsed by
    the regex above, and an optional query is appended. -/
def makeGetApiURL (baseURL : String) (path : String)
    (searchParams : Option SearchParams) : UrlInput :=
  addQueryToURL (.str (collapseSlashes (baseURL ++ "/" ++ path))) searchParams

/-- Claim C5 evaluated on the code: the three compositions quoted by the
    spec do produce a single separator, but the collapsing regex
    `([^https?:]\/)\/+` requires the character before a slash run to lie
    outside the class `h,t,p,s,?,:`, so a base ending in such a character
    (here `s`) followed by a slash-leading path keeps a doubled slash,
    contradicting the claim's "for every base/path pair". -/
theorem c5_makeGetApiURL_slashes :
    makeGetApiURL "https://x/api/" "/users" none = .str "https://x/api/users"
    ∧ makeGetApiURL "https://x/api" "users" none = .str "https://x/api/users"
    ∧ makeGetApiURL "https://x/api" "/users" none = .str "https://x/api/users"
    ∧ makeGetApiURL "https://x/apis" "/users" none = .str "https://x/apis//users"
    ∧ "https://x/apis//users" ≠ "https://x/apis/users" := by
  exact ⟨rfl, rfl, rfl, rfl, by decide⟩

/-- Parameter values accepted by `replaceURLParams`: strings and numbers
    (stringified with the template literal in the replacement). -/
inductive ParamValue where
  | str (s : String) : ParamValue
  | num (n : Int) : ParamValue

/-- Stringification of a parameter value. -/
def paramValueStr : ParamValue → String
  | .str s => s
  | .num n => toString n

/-- Decidable list prefix test. -/
def startsWithList : List Char → List Char → Bool
  | [], _ => true
  | _ :: _, [] => false
  | a :: as, b :: bs => a = b && startsWithList as bs

/-- Whether the regex `:key($|/)` of `replaceURLParams` matches at the head
    of the list: a colon, then the key, then a slash or the end of the
    string. -/
def paramMatchAt (key : List Char) : List Char → Bool
  | [] => false
  | c :: rest =>
      c = ':' && startsWithList key rest &&
        ((rest.drop key.length).isEmpty || (rest.drop key.length).head? = some '/')

/-- Left-to-right scan of `urlString.replace(new RegExp(`...`), ...)` with
    the non-global regex `:key($|/)`: only the first match is replaced; the
    captured `$1` (the slash or empty end) is written back. -/
def replaceParamGo (key val : List Char) : List Char → List Char
  | [] => []
  | c :: rest =>
      if paramMatchAt key (c :: rest) then val ++ rest.drop key.length
      else c :: replaceParamGo key val rest

/-- Embedding of `replaceURLParams` (`src/src/internals.ts`, lines
    123-135) for string urls: absent params return the url; otherwise each
    params entry replaces the first `:key($|/)` occurrence in sequence.
    (For a `URL` instance the code round-trips through `String(url)` and
    `new URL(...)`; no claim exercises that branch.) -/
def replaceURLParams (url : String) (params : Option (List (String × ParamValue))) :
    String :=
  match params with
  | none => url
  | some ps =>
      String.mk (ps.foldl
        (fun cs kv => replaceParamGo kv.1.toList (paramValueStr kv.2).toList cs)
        url.toList)

theorem startsWithList_append_self (k t : List Char) :
    startsWithList k (k ++ t) = true := by
  induction k with
  | nil => rfl
  | cons c rest ih => simp [startsWithList, ih]

theorem replaceParamGo_replaces (key val a tail : List Char)
    (hb : tail = [] ∨ tail.head? = some '/')
    (hno : ∀ i, i < a.length →
      paramMatchAt key ((a ++ ':' :: (key ++ tail)).drop i) = false) :
    replaceParamGo key val (a ++ ':' :: (key ++ tail)) = a ++ val ++ tail := by
  induction a with
  | nil =>
      have hm : paramMatchAt key (':' :: (key ++ tail)) = true := by
        simp only [paramMatchAt, startsWithList_append_self, List.drop_left]
        rcases hb with h | h
        · simp [h]
        · simp [h]
      simp only [List.nil_append]
      rw [replaceParamGo, if_pos hm, List.drop_left]
  | cons c a2 ih =>
      have h0 : paramMatchAt key (c :: (a2 ++ ':' :: (key ++ tail))) = false := by
        have := hno 0 (by simp)
        simpa using this
      simp only [List.cons_append]
      rw [replaceParamGo, if_neg (by simp [h0])]
      rw [ih]
      · intro i hi
        have := hno (i + 1) (by simp; omega)
        simpa using this

theorem replaceParamGo_id (key val cs : List Char)
    (hno : ∀ i, i < cs.length → paramMatchAt key (cs.drop i) = false) :
    replaceParamGo key val cs = cs := by
  induction cs with
  | nil => rfl
  | cons c rest ih =>
      have h0 : paramMatchAt key (c :: rest) = false := by
        have := hno 0 (by simp)
        simpa using this
      rw [replaceParamGo, if_neg (by simp [h0])]
      rw [ih]
      intro i hi
      have := hno (i + 1) (by simp; omega)
      simpa using this

/-- Claim C6: `replaceURLParams` returns the url unchanged on absent or
    empty params; for a key in params, the first occurrence of `:key`
    followed by `/` or the end of the string is replaced by the stringified
    value (numbers in decimal form); occurrences of other placeholders are
    left as-is with no error. -/
theorem c6_replaceURLParams :
    (∀ url, replaceURLParams url none = url)
    ∧ (∀ url, replaceURLParams url (some []) = url)
    ∧ (∀ (key : String) (v : ParamValue) (a tail : List Char),
        (tail = [] ∨ tail.head? = some '/') →
        (∀ i, i < a.length →
          paramMatchAt key.toList ((a ++ ':' :: (key.toList ++ tail)).drop i) = false) →
        replaceURLParams (String.mk (a ++ ':' :: (key.toList ++ tail))) (some [(key, v)])
          = String.mk (a ++ (paramValueStr v).toList ++ tail))
    ∧ (∀ (key : String) (v : ParamValue) (url : String),
        (∀ i, i < url.toList.length → paramMatchAt key.toList (url.toList.drop i) = false) →
        replaceURLParams url (some [(key, v)]) = url)
    ∧ replaceURLParams "/users/:id" (some [("id", .num 1)]) = "/users/1"
    ∧ replaceURLParams "http://example.com/users/:id/posts/:postId"
        (some [("id", .str "1"), ("postId", .str "3")])
        = "http://example.com/users/1/posts/3"
    ∧ replaceURLParams "/users/:id" (some [("foo", .str "1")]) = "/users/:id" := by
  refine ⟨fun url => rfl, fun url => rfl, ?_, ?_, by decide, by decide, by decide⟩
  · intro key v a tail hb hno
    simp only [replaceURLParams, List.foldl_cons, List.foldl_nil]
    congr 1
    exact replaceParamGo_replaces key.toList (paramValueStr v).toList a tail hb hno
  · intro key v url hno
    simp only [replaceURLParams, List.foldl_cons, List.foldl_nil]
    rw [replaceParamGo_id key.toList (paramValueStr v).toList url.toList hno]
    rfl

/-- Witness for C6: the general replacement and identity parts applied at
    concrete inputs. -/
theorem c6_replaceURLParams_witness :
    replaceURLParams (String.mk ("/users/".toList ++ ':' :: ("id".toList ++ [])))
      (some [("id", .str "7")]) = String.mk ("/users/".toList ++ "7".toList ++ [])
    ∧ replaceURLParams "/users" (some [("id", .str "7")]) = "/users" := by
  constructor
  · exact c6_replaceURLParams.2.2.1 "id" (.str "7") "/users/".toList []
      (Or.inl rfl) (by decide)
  · exact c6_replaceURLParams.2.2.2.1 "id" (.str "7") "/users" (by decide)

/-- Counterexample to C7 as stated: the code's guard
    `if (!searchParams) return url` also fires for a present query that is
    the falsy empty pre-encoded string, so `addQueryToURL(url, "")` returns
    the url unchanged, not the url with `?` and the (empty) serialization
    appended as the claim's universal append clause demands. -/
theorem c7_addQueryToURL_cex :
    addQueryToURL (.str "https://example.com/api") (some (.qs ""))
      = .str "https://example.com/api"
    ∧ ("https://example.com/api" : String)
        ≠ "https://example.com/api"
            ++ (if ("https://example.com/api".toList.contains '?') then "&" else "?")
            ++ serializeSearchParams (.qs "") :=
  ⟨rfl, by decide⟩

/-- Claim C7, amended: `addQueryToURL` with an absent query — or with the
    one falsy present query, the empty pre-encoded string — returns the url
    unchanged (same value and type, for both string and `URL` inputs); with
    any other (truthy) query and a string url the serialized pairs are
    appended after `&` when the url already has a query string and after
    `?` otherwise, uniformly over mappings, pair lists, non-empty
    pre-encoded strings and `URLSearchParams` instances. -/
theorem c7_addQueryToURL :
    (∀ url, addQueryToURL url none = url)
    ∧ (∀ url, addQueryToURL url (some (.qs "")) = url)
    ∧ (∀ (s : String) (sp : SearchParams), falsyQuery sp = false →
        addQueryToURL (.str s) (some sp)
          = .str (s ++ (if s.toList.contains '?' then "&" else "?")
              ++ serializeSearchParams sp))
    ∧ addQueryToURL (.str "https://example.com/api?id=1") (some (.record [("page", "2")]))
        = .str "https://example.com/api?id=1&page=2"
    ∧ addQueryToURL (.str "https://example.com/api?id=1") (some (.pairs [("page", "2")]))
        = .str "https://example.com/api?id=1&page=2"
    ∧ addQueryToURL (.str "https://example.com/api?id=1") (some (.qs "page=2"))
        = .str "https://example.com/api?id=1&page=2"
    ∧ addQueryToURL (.str "https://example.com/api?id=1") (some (.usp [("page", "2")]))
        = .str "https://example.com/api?id=1&page=2"
    ∧ addQueryToURL (.str "https://example.com/api") (some (.record [("page", "2")]))
        = .str "https://example.com/api?page=2" := by
  refine ⟨fun _ => rfl, fun _ => rfl, ?_, rfl, rfl, rfl, rfl, rfl⟩
  intro s sp h
  simp [addQueryToURL, h]

/-- Witness for C7: the truthy-query append clause applied at a concrete
    url and query. -/
theorem c7_addQueryToURL_witness :
    addQueryToURL (.str "https://example.com/api?id=1") (some (.record [("page", "2")]))
      = .str ("https://example.com/api?id=1"
          ++ (if ("https://example.com/api?id=1".toList.contains '?') then "&" else "?")
          ++ serializeSearchParams (.record [("page", "2")])) :=
  c7_addQueryToURL.2.2.1 "https://example.com/api?id=1" (.record [("page", "2")]) rfl

/-- Query pair list of a url helper result (`URL` branch). -/
def urlQuery : UrlInput → List (String × String)
  | .str _ => []
  | .url u => u.searchParams

theorem countP_uspSet_self (l : List (String × String)) (k v : String) :
    (uspSet l k v).countP (fun p => p.1 == k) = 1 := by
  induction l with
  | nil => simp [uspSet, List.countP_cons]
  | cons p rest ih =>
      by_cases hp : p.1 = k
      · rw [uspSet, if_pos hp]
        rw [List.countP_cons]
        simp only [beq_self_eq_true, if_true]
        have hz : (rest.filter (fun q => q.1 != k)).countP (fun p => p.1 == k) = 0 := by
          rw [List.countP_eq_zero]
          intro a ha
          have := List.of_mem_filter ha
          simpa using this
        simp [hz]
      · rw [uspSet, if_neg hp]
        rw [List.countP_cons, ih]
        simp [hp]

theorem countP_filter_ne (r : List (String × String)) (k k2 : String) (h : k2 ≠ k) :
    (r.filter (fun q => q.1 != k)).countP (fun p => p.1 == k2)
      = r.countP (fun p => p.1 == k2) := by
  induction r with
  | nil => rfl
  | cons q r2 ih =>
      by_cases hq : q.1 = k
      · have hq2 : (q.1 == k2) = false := by
          simp only [beq_eq_false_iff_ne, ne_eq]
          intro hc
          apply h
          rw [← hc, hq]
        simp only [List.filter_cons, List.countP_cons, hq2, ih]
        have hb : (q.1 != k) = false := by simp [hq]
        simp [hb, List.countP_cons, ih, hq2]
      · simp [List.filter_cons, hq, List.countP_cons, ih]

theorem countP_uspSet_other (l : List (String × String)) (k v k2 : String)
    (h : k2 ≠ k) :
    (uspSet l k v).countP (fun p => p.1 == k2) = l.countP (fun p => p.1 == k2) := by
  have h1 : (k == k2) = false := by
    simp only [beq_eq_false_iff_ne, ne_eq]
    intro hc
    exact h hc.symm
  induction l with
  | nil => simp [uspSet, List.countP_cons, h1]
  | cons p rest ih =>
      by_cases hp : p.1 = k
      · have h2 : (p.1 == k2) = false := by rw [hp]; exact h1
        rw [uspSet, if_pos hp, List.countP_cons, List.countP_cons,
          countP_filter_ne rest k k2 h]
        simp [h1, h2]
      · rw [uspSet, if_neg hp, List.countP_cons, List.countP_cons, ih]

theorem countP_fold_uspSet_absent (entries l : List (String × String)) (k : String)
    (h : entries.any (fun kv => kv.1 == k) = false) :
    (entries.foldl (fun l kv => uspSet l kv.1 kv.2) l).countP (fun p => p.1 == k)
      = l.countP (fun p => p.1 == k) := by
  induction entries generalizing l with
  | nil => rfl
  | cons kv rest ih =>
      simp only [List.any_cons, Bool.or_eq_false_iff] at h
      rw [List.foldl_cons, ih _ h.2, countP_uspSet_other]
      intro hc
      simp [hc] at h

theorem countP_fold_uspSet_present (entries l : List (String × String)) (k : String)
    (h : entries.any (fun kv => kv.1 == k) = true) :
    (entries.foldl (fun l kv => uspSet l kv.1 kv.2) l).countP (fun p => p.1 == k) = 1 := by
  induction entries generalizing l with
  | nil => simp at h
  | cons kv rest ih =>
      by_cases hr : rest.any (fun kv => kv.1 == k) = true
      · rw [List.foldl_cons]
        exact ih _ hr
      · have hk : kv.1 = k := by
          simp only [List.any_cons] at h
          rcases Bool.or_eq_true_iff.mp h with h1 | h1
          · exact beq_iff_eq.mp h1
          · exact absurd h1 hr
        rw [List.foldl_cons,
          countP_fold_uspSet_absent rest _ k (Bool.not_eq_true _ ▸ by simpa using hr)]
        rw [hk, countP_uspSet_self]

theorem falsyQuery_eq_qs_empty (sp : SearchParams) (h : falsyQuery sp = true) :
    sp = .qs "" := by
  cases sp with
  | qs s =>
      have hs : s = "" := by simpa [falsyQuery] using h
      rw [hs]
  | record ps => simp [falsyQuery] at h
  | pairs es => simp [falsyQuery] at h
  | usp es => simp [falsyQuery] at h

theorem addQueryToURL_url_eq (u : URLModel) (sp : SearchParams) :
    addQueryToURL (.url u) (some sp)
      = .url { u with searchParams :=
          (searchPairs sp).foldl (fun l kv => uspSet l kv.1 kv.2) u.searchParams } := by
  by_cases h : falsyQuery sp = true
  · have hsp := falsyQuery_eq_qs_empty sp h
    subst hsp
    rfl
  · have h2 : falsyQuery sp = false := by simpa using h
    simp [addQueryToURL, h2]

/-- Claim C10: on a `URL` instance with a query present, `addQueryToURL`
    returns the same object with only its `searchParams` component updated
    (the in-place mutation of the shallow embedding); every pair is written
    with set-semantics, so a key occurring in the new query ends up with
    exactly one entry (overwritten, not duplicated) and keys not mentioned
    keep their entry count; scheme, host, port, path and hash are
    untouched. -/
theorem c10_addQueryToURL_url_mutation :
    (∀ (u : URLModel) (sp : SearchParams),
        addQueryToURL (.url u) (some sp)
          = .url { u with searchParams :=
              (searchPairs sp).foldl (fun l kv => uspSet l kv.1 kv.2) u.searchParams })
    ∧ (∀ (u : URLModel) (sp : SearchParams),
        ∃ u2, addQueryToURL (.url u) (some sp) = .url u2
          ∧ u2.scheme = u.scheme ∧ u2.host = u.host ∧ u2.port = u.port
          ∧ u2.pathname = u.pathname ∧ u2.hash = u.hash)
    ∧ (∀ (u : URLModel) (sp : SearchParams) (k : String),
        (searchPairs sp).any (fun kv => kv.1 == k) = true →
        (urlQuery (addQueryToURL (.url u) (some sp))).countP (fun p => p.1 == k) = 1)
    ∧ (∀ (u : URLModel) (sp : SearchParams) (k : String),
        (searchPairs sp).any (fun kv => kv.1 == k) = false →
        (urlQuery (addQueryToURL (.url u) (some sp))).countP (fun p => p.1 == k)
          = u.searchParams.countP (fun p => p.1 == k))
    ∧ urlQuery (addQueryToURL
        (.url ⟨"https:", "example.com", "", "/api", "", [("page", "1")]⟩)
        (some (.record [("page", "2")]))) = [("page", "2")]
    ∧ urlQuery (addQueryToURL
        (.url ⟨"https:", "example.com", "", "/api", "", [("id", "1")]⟩)
        (some (.record [("page", "2")]))) = [("id", "1"), ("page", "2")] := by
  refine ⟨addQueryToURL_url_eq, ?_, ?_, ?_, rfl, rfl⟩
  · intro u sp
    exact ⟨_, addQueryToURL_url_eq u sp, rfl, rfl, rfl, rfl, rfl⟩
  · intro u sp k h
    rw [addQueryToURL_url_eq]
    exact countP_fold_uspSet_present (searchPairs sp) u.searchParams k h
  · intro u sp k h
    rw [addQueryToURL_url_eq]
    exact countP_fold_uspSet_absent (searchPairs sp) u.searchParams k h

/-- Witness for C10: the set-semantics parts applied at a concrete URL and
    query. -/
theorem c10_addQueryToURL_url_mutation_witness :
    (urlQuery (addQueryToURL
        (.url ⟨"https:", "example.com", "", "/api", "", [("page", "1"), ("page", "0")]⟩)
        (some (.record [("page", "2")])))).countP (fun p => p.1 == "page") = 1
    ∧ (urlQuery (addQueryToURL
        (.url ⟨"https:", "example.com", "", "/api", "", [("id", "1")]⟩)
        (some (.record [("page", "2")])))).countP (fun p => p.1 == "id")
        = [(("id" : String), ("1" : String))].countP (fun p => p.1 == "id") := by
  constructor
  · exact c10_addQueryToURL_url_mutation.2.2.1 _ _ "page" (by decide)
  · exact c10_addQueryToURL_url_mutation.2.2.2.1 _ _ "id" (by decide)

/-- One validation issue of a Standard Schema validator
    (`src/src/standard-schema.ts`): a message and a path. -/
structure Issue where
  message : String
  path : List String
deriving DecidableEq

/-- Result of `schema['~standard'].validate`: either a value or an issue
    list.  The code's test is `if (result.issues)`, so a failure is
    identified by the presence of the issue list. -/
inductive ValidationResult (α : Type) where
  | success (value : α) : ValidationResult α
  | failure (issues : List Issue) : ValidationResult α

/-- A Standard Schema validator over input `ι` with output `α`
    (`StandardSchemaV1`). -/
structure StdSchema (ι α : Type) where
  validate : ι → ValidationResult α

/-- Modelled from the spec: the `ParseResponseError` class (the spec's
    DecodeError) lives in `src/primitives.ts`, which is not among the
    provided sources; per the spec it is "raised ... carrying the message
    and the issue list verbatim", so it is a structure holding the message
    string it was constructed with and the issues. -/
structure ParseResponseError where
  message : String
  issues : List Issue

/-- The part of a transport response read by the decoders: its parsed JSON
    body and its text body. -/
structure ResponseModel where
  jsonBody : JSONValue
  textBody : String

/-- Embedding of `getJson` (`src/unnamed/part_003`, lines 10-25, the
    current `src/internals.ts`): without a schema the parsed JSON is
    returned as an unchecked cast (the `Sum.inl` branch); with a schema,
    a validation failure raises `ParseResponseError` with message
    "Failed to parse response.json" and the issues verbatim, and a success
    returns the validated value. -/
def getJson {α : Type} (response : ResponseModel)
    (schema : Option (StdSchema JSONValue α)) :
    Except ParseResponseError (JSONValue ⊕ α) :=
  match schema with
  | none => .ok (.inl response.jsonBody)
  | some s =>
      match s.validate response.jsonBody with
      | .failure issues => .error ⟨"Failed to parse response.json", issues⟩
      | .success v => .ok (.inr v)

/-- Embedding of `getText` (`src/unnamed/part_003`, lines 31-46): the same
    contract over the text body with message
    "Failed to parse response.text". -/
def getText {α : Type} (response : ResponseModel)
    (schema : Option (StdSchema String α)) :
    Except ParseResponseError (String ⊕ α) :=
  match schema with
  | none => .ok (.inl response.textBody)
  | some s =>
      match s.validate response.textBody with
      | .failure issues => .error ⟨"Failed to parse response.text", issues⟩
      | .success v => .ok (.inr v)

/-- Substring test on character lists. -/
def containsSubstrL (pat : List Char) : List Char → Bool
  | [] => pat.isEmpty
  | c :: rest => startsWithList pat (c :: rest) || containsSubstrL pat rest

/-- Substring test on strings. -/
def containsSubstr (s pat : String) : Bool :=
  containsSubstrL pat.toList s.toList

/-- Claim C3: with a schema, a payload whose validation fails (the
    validator reports its issues) makes `getJson` raise a
    `ParseResponseError` whose issue list is the validator's verbatim
    (hence of length at least 1) and whose message contains
    "Failed to parse response.json"; a payload that validates returns the
    validated value; `getText` behaves the same over the text body with
    "Failed to parse response.text". -/
theorem c3_decode_errors {α β : Type} (s : StdSchema JSONValue α)
    (t : StdSchema String β) (resp : ResponseModel) :
    (∀ issues, s.validate resp.jsonBody = .failure issues → issues ≠ [] →
      ∃ e, getJson resp (some s) = .error e
        ∧ e.issues = issues ∧ 1 ≤ e.issues.length
        ∧ containsSubstr e.message "Failed to parse response.json" = true)
    ∧ (∀ v, s.validate resp.jsonBody = .success v →
        getJson resp (some s) = .ok (.inr v))
    ∧ (∀ issues, t.validate resp.textBody = .failure issues → issues ≠ [] →
      ∃ e, getText resp (some t) = .error e
        ∧ e.issues = issues ∧ 1 ≤ e.issues.length
        ∧ containsSubstr e.message "Failed to parse response.text" = true)
    ∧ (∀ v, t.validate resp.textBody = .success v →
        getText resp (some t) = .ok (.inr v)) := by
  refine ⟨?_, ?_, ?_, ?_⟩
  · intro issues hv hne
    refine ⟨⟨"Failed to parse response.json", issues⟩, ?_, rfl, ?_, by rfl⟩
    · simp [getJson, hv]
    · simpa using List.length_pos.mpr hne
  · intro v hv
    simp [getJson, hv]
  · intro issues hv hne
    refine ⟨⟨"Failed to parse response.text", issues⟩, ?_, rfl, ?_, by rfl⟩
    · simp [getText, hv]
    · simpa using List.length_pos.mpr hne
  · intro v hv
    simp [getText, hv]

/-- A validator that rejects everything with one issue, as a zod schema
    does on a type mismatch; used to witness C3. -/
def demoFailSchema : StdSchema JSONValue String :=
  ⟨fun _ => .failure [⟨"Expected string, received number", ["foo"]⟩]⟩

/-- A validator that accepts everything; used to witness C3. -/
def demoOkTextSchema : StdSchema String String :=
  ⟨fun s => .success s⟩

/-- A concrete response; used to witness C3. -/
def demoResp : ResponseModel :=
  ⟨.obj [("foo", .num 1)], "not an email"⟩

/-- Witness for C3: the failure and success branches at a concrete
    response and schemas. -/
theorem c3_decode_errors_witness :
    (∃ e, getJson demoResp (some demoFailSchema) = .error e
      ∧ e.issues = [⟨"Expected string, received number", ["foo"]⟩]
      ∧ 1 ≤ e.issues.length
      ∧ containsSubstr e.message "Failed to parse response.json" = true)
    ∧ getText demoResp (some demoOkTextSchema) = .ok (.inr "not an email") := by
  constructor
  · exact (c3_decode_errors demoFailSchema demoOkTextSchema demoResp).1
      [⟨"Expected string, received number", ["foo"]⟩] rfl (by decide)
  · exact (c3_decode_errors demoFailSchema demoOkTextSchema demoResp).2.2.2
      "not an email" rfl

/-- The supported HTTP verb list (`src/constants.ts`, `HTTP_METHODS`). -/
def HTTP_METHODS : List String :=
  ["GET", "POST", "PUT", "DELETE", "PATCH", "OPTIONS", "HEAD", "CONNECT"]

/-- Embedding of `isHTTPMethod` (`src/unnamed/part_005`, lines 30-32). -/
def isHTTPMethod (m : String) : Bool :=
  HTTP_METHODS.contains m

/-- ASCII uppercasing of a single character. -/
def upperCh (c : Char) : Char :=
  if isLowerCh c then Char.ofNat (c.toNat - 32) else c

/-- ASCII uppercasing of a string (`String.prototype.toUpperCase` on the
    ASCII range). -/
def upperStr (s : String) : String :=
  String.mk (s.toList.map upperCh)

/-- First-occurrence deduplication, as `Array.from(new Set(...))`. -/
def dedupAux (seen : List String) : List String → List String
  | [] => []
  | x :: rest =>
      if seen.contains x then dedupAux seen rest
      else x :: dedupAux (x :: seen) rest

/-- Model of `Array.from(new Set(routes.map(r => r.method)))`. -/
def dedupFirst (l : List String) : List String :=
  dedupAux [] l

/-- Embedding of the `makeService` Proxy `get` handler
    (`src/src/index.ts`, lines 250-259): the accessed property name is
    uppercased; if it is a supported method in the service's method set the
    handler returns the verb's service function (modelled by the chosen
    method), otherwise it throws `Invalid HTTP method: <prop>`.  The
    handler runs synchronously during property access, so the error is
    modelled as the immediate `Except.error` result of the access itself,
    not as a rejected promise. -/
def serviceProxyGet (routes : Option (List String)) (prop : String) :
    Except String String :=
  let methodsSet := match routes with
    | some rs => dedupFirst rs
    | none => HTTP_METHODS
  let httpMethod := upperStr prop
  if isHTTPMethod httpMethod && methodsSet.contains httpMethod then
    .ok httpMethod
  else
    .error ("Invalid HTTP method: " ++ prop)

/-- Claim C9: accessing a property of a default `makeService` object that
    is not one of the eight supported verbs (case-insensitively) raises
    `Invalid HTTP method: ...` immediately and synchronously, while each of
    the eight lowercase verb names yields a callable for that verb. -/
theorem c9_invalid_method_throws :
    (∀ prop : String, HTTP_METHODS.contains (upperStr prop) = false →
        serviceProxyGet none prop = .error ("Invalid HTTP method: " ++ prop))
    ∧ serviceProxyGet none "get" = .ok "GET"
    ∧ serviceProxyGet none "post" = .ok "POST"
    ∧ serviceProxyGet none "put" = .ok "PUT"
    ∧ serviceProxyGet none "patch" = .ok "PATCH"
    ∧ serviceProxyGet none "delete" = .ok "DELETE"
    ∧ serviceProxyGet none "head" = .ok "HEAD"
    ∧ serviceProxyGet none "options" = .ok "OPTIONS"
    ∧ serviceProxyGet none "connect" = .ok "CONNECT"
    ∧ serviceProxyGet none "foo" = .error "Invalid HTTP method: foo" := by
  refine ⟨?_, rfl, rfl, rfl, rfl, rfl, rfl, rfl, rfl, rfl⟩
  intro prop h
  simp [serviceProxyGet, isHTTPMethod, h]
  simpa using h

/-- Witness for C9: the error branch applied at a concrete property
    name. -/
theorem c9_invalid_method_throws_witness :
    serviceProxyGet none "json" = .error "Invalid HTTP method: json" :=
  c9_invalid_method_throws.1 "json" (by decide)

/-- Request options of the old `enhancedFetch`
    (`EnhancedRequestInit`): the fields the dispatch pipeline reads. -/
structure EnhancedRequestInitModel where
  method : Option String := none
  headers : HeaderSource := []
  params : Option (List (String × ParamValue)) := none
  query : Option SearchParams := none
  body : BodyInitValue := .undefinedValue

/-- Arguments with which the dispatcher invokes the transport `fetch`. -/
structure FetchArgs where
  url : UrlInput
  method : Option String
  headers : List (String × String)
  body : BodyInitValue

/-- Embedding of `enhancedFetch` (`src/src/index.ts`, lines 171-191) up to
    the transport invocation: the default `content-type: application/json`
    header is merged as the first (lowest-priority) source with the
    caller's headers, path params are substituted, the query is appended,
    the body normalized, and `fetch` is called with the resulting url and
    options. -/
def enhancedFetchArgs (url : String) (ri : EnhancedRequestInitModel) : FetchArgs :=
  let headers := mergeHeaders [[("content-type", some "application/json")], ri.headers]
  let withParams := replaceURLParams url (some (ri.params.getD []))
  let fullURL := addQueryToURL (.str withParams) ri.query
  let body := ensureStringBody ri.body
  { url := fullURL, method := ri.method, headers := headers, body := body }

/-- Embedding of `makeGetApiUrl` from the same file (lines 105-111): base
    and path concatenated, slash runs collapsed by the same regex as
    `makeGetApiURL`, no query appended at this point. -/
def makeGetApiUrl (baseURL path : String) : String :=
  collapseSlashes (baseURL ++ path)

/-- Embedding of a `makeService(baseURL, baseHeaders).<verb>(path, ri)`
    call (`src/src/index.ts`, lines 214-229): the path is joined to the
    base, the base headers are merged with the per-call headers (per-call
    wins) and the result — a `Headers` value, hence entries with present
    values — is handed to `enhancedFetch` together with the verb. -/
def serviceCall (baseURL : String) (baseHeaders : HeaderSource) (method : String)
    (path : String) (ri : EnhancedRequestInitModel) : FetchArgs :=
  let url := makeGetApiUrl baseURL path
  enhancedFetchArgs url
    { ri with
      method := some method
      headers := (mergeHeaders [baseHeaders, ri.headers]).map (fun p => (p.1, some p.2)) }

/-- Claim C1: the end-to-end dispatch scenario.  A service with base
    `https://example.com/api` and base header `Authorization: Bearer 123`,
    called as `.get("/users/:id", {params: {id: "1"}, query: {admin:
    "true"}})`, invokes the transport with the final URL
    `https://example.com/api/users/1?admin=true` and headers containing
    both the authorization header and the default
    `content-type: application/json`; the default is the lowest-priority
    source, overridden by a caller-supplied content-type. -/
theorem c1_end_to_end_dispatch :
    serviceCall "https://example.com/api" [("Authorization", some "Bearer 123")]
        "GET" "/users/:id"
        { params := some [("id", .str "1")], query := some (.record [("admin", "true")]) }
      = { url := .str "https://example.com/api/users/1?admin=true"
          method := some "GET"
          headers := [("content-type", "application/json"), ("authorization", "Bearer 123")]
          body := .undefinedValue }
    ∧ headerGet (serviceCall "https://example.com/api"
        [("Authorization", some "Bearer 123")] "GET" "/users/:id"
        { params := some [("id", .str "1")], query := some (.record [("admin", "true")]) }).headers
        "authorization" = some "Bearer 123"
    ∧ headerGet (serviceCall "https://example.com/api"
        [("Authorization", some "Bearer 123")] "GET" "/users/:id"
        { params := some [("id", .str "1")], query := some (.record [("admin", "true")]) }).headers
        "content-type" = some "application/json"
    ∧ headerGet (serviceCall "https://example.com/api"
        [("Authorization", some "Bearer 123")] "GET" "/users/:id"
        { params := some [("id", .str "1")],
          query := some (.record [("admin", "true")]),
          headers := [("Content-Type", some "text/xml")] }).headers
        "content-type" = some "text/xml" := by
  refine ⟨?_, by decide, by decide, by decide⟩
  rfl

theorem toNat_ofNat_valid (n : Nat) (h : n < 55296) : (Char.ofNat n).toNat = n := by
  have hv : n.isValidChar := Or.inl h
  rw [Char.ofNat, dif_pos hv]
  rfl

theorem lowerCh_eq_of_upper (c : Char) (h : isUpperCh c = true) :
    lowerCh c = Char.ofNat (c.toNat + 32) := by
  simp [lowerCh, h]

theorem toNat_bounds_of_upper (c : Char) (h : isUpperCh c = true) :
    65 ≤ c.toNat ∧ c.toNat ≤ 90 := by
  simpa [isUpperCh, Bool.and_eq_true, decide_eq_true_eq] using h

theorem isLowerCh_lowerCh (c : Char) (h : isUpperCh c = true) :
    isLowerCh (lowerCh c) = true := by
  have hb := toNat_bounds_of_upper c h
  have ht : (Char.ofNat (c.toNat + 32)).toNat = c.toNat + 32 :=
    toNat_ofNat_valid _ (by omega)
  rw [lowerCh_eq_of_upper c h]
  simp only [isLowerCh, ht, Bool.and_eq_true, decide_eq_true_eq]
  omega

theorem upperCh_lowerCh (c : Char) (h : isUpperCh c = true) :
    upperCh (lowerCh c) = c := by
  have hb := toNat_bounds_of_upper c h
  have ht : (Char.ofNat (c.toNat + 32)).toNat = c.toNat + 32 :=
    toNat_ofNat_valid _ (by omega)
  rw [lowerCh_eq_of_upper c h]
  have hlo : isLowerCh (Char.ofNat (c.toNat + 32)) = true := by
    simp only [isLowerCh, ht, Bool.and_eq_true, decide_eq_true_eq]
    omega
  simp only [upperCh, hlo, if_true, ht]
  have h32 : c.toNat + 32 - 32 = c.toNat := by omega
  rw [h32, Char.ofNat_toNat]

theorem lowerCh_upperCh (c : Char) (h : isLowerCh c = true) :
    lowerCh (upperCh c) = c := by
  have hb : 97 ≤ c.toNat ∧ c.toNat ≤ 122 := by
    simpa [isLowerCh, Bool.and_eq_true, decide_eq_true_eq] using h
  have hup : upperCh c = Char.ofNat (c.toNat - 32) := by
    simp [upperCh, h]
  have ht : (Char.ofNat (c.toNat - 32)).toNat = c.toNat - 32 :=
    toNat_ofNat_valid _ (by omega)
  rw [hup]
  have hupc : isUpperCh (Char.ofNat (c.toNat - 32)) = true := by
    simp only [isUpperCh, ht, Bool.and_eq_true, decide_eq_true_eq]
    omega
  simp only [lowerCh, hupc, if_true, ht]
  have h32 : c.toNat - 32 + 32 = c.toNat := by omega
  rw [h32, Char.ofNat_toNat]

theorem isUpperCh_upperCh (c : Char) (h : isLowerCh c = true) :
    isUpperCh (upperCh c) = true := by
  have hb : 97 ≤ c.toNat ∧ c.toNat ≤ 122 := by
    simpa [isLowerCh, Bool.and_eq_true, decide_eq_true_eq] using h
  have ht : (Char.ofNat (c.toNat - 32)).toNat = c.toNat - 32 :=
    toNat_ofNat_valid _ (by omega)
  simp only [upperCh, h, if_true, isUpperCh, ht, Bool.and_eq_true, decide_eq_true_eq]
  omega

theorem lowerCh_of_not_upper (c : Char) (h : isUpperCh c = false) :
    lowerCh c = c := by
  simp only [lowerCh, h]
  rfl

theorem lowerCh_of_lower (c : Char) (h : isLowerCh c = true) : lowerCh c = c := by
  apply lowerCh_of_not_upper
  simp only [isLowerCh, Bool.and_eq_true, decide_eq_true_eq] at h
  simp only [isUpperCh, Bool.and_eq_false_iff, decide_eq_false_iff_not]
  omega

theorem lowerCh_of_digit (c : Char) (h : isDigitCh c = true) : lowerCh c = c := by
  apply lowerCh_of_not_upper
  simp only [isDigitCh, Bool.and_eq_true, decide_eq_true_eq] at h
  simp only [isUpperCh, Bool.and_eq_false_iff, decide_eq_false_iff_not]
  omega

theorem upperCh_of_upper (c : Char) (h : isUpperCh c = true) : upperCh c = c := by
  simp only [isUpperCh, Bool.and_eq_true, decide_eq_true_eq] at h
  simp only [upperCh, isLowerCh]
  rw [if_neg (by simp only [Bool.and_eq_true, decide_eq_true_eq]; omega)]

theorem not_upper_of_lower (c : Char) (h : isLowerCh c = true) :
    isUpperCh c = false := by
  simp only [isLowerCh, Bool.and_eq_true, decide_eq_true_eq] at h
  simp only [isUpperCh, Bool.and_eq_false_iff, decide_eq_false_iff_not]
  omega

theorem not_lower_of_upper (c : Char) (h : isUpperCh c = true) :
    isLowerCh c = false := by
  simp only [isUpperCh, Bool.and_eq_true, decide_eq_true_eq] at h
  simp only [isLowerCh, Bool.and_eq_false_iff, decide_eq_false_iff_not]
  omega

theorem not_lower_of_digit (c : Char) (h : isDigitCh c = true) :
    isLowerCh c = false := by
  simp only [isDigitCh, Bool.and_eq_true, decide_eq_true_eq] at h
  simp only [isLowerCh, Bool.and_eq_false_iff, decide_eq_false_iff_not]
  omega

theorem not_digit_of_upper (c : Char) (h : isUpperCh c = true) :
    isDigitCh c = false := by
  simp only [isUpperCh, Bool.and_eq_true, decide_eq_true_eq] at h
  simp only [isDigitCh, Bool.and_eq_false_iff, decide_eq_false_iff_not]
  omega

/-- Lookahead `(?=[A-Z][a-z]+[0-9]*|\b)` of the `words` regex, evaluated
    after a run of uppercase letters (so the character before the position
    is a word character): either an uppercase letter followed by a
    lowercase letter comes next, or the position is a word boundary. -/
def lookahead1 : List Char → Bool
  | [] => true
  | [c] => !isWordCh c
  | c :: c2 :: _ => (isUpperCh c && isLowerCh c2) || !isWordCh c

/-- Backtracking search of the greedy quantifier `[A-Z]{2,}`: try the run
    length, then shorter prefixes down to 2, returning the longest length
    whose lookahead succeeds. -/
def b1search (cs : List Char) : Nat → Option Nat
  | 0 => none
  | 1 => none
  | n + 2 =>
      if lookahead1 (cs.drop (n + 2)) then some (n + 2)
      else b1search cs (n + 1)

/-- First alternative `[A-Z]{2,}(?=[A-Z][a-z]+[0-9]*|\b)` of the `words`
    regex (`src/src/transforms.ts`, lines 39-44). -/
def branch1 (cs : List Char) : Option (List Char × List Char) :=
  match b1search cs (cs.takeWhile isUpperCh).length with
  | some len => some (cs.take len, cs.drop len)
  | none => none

/-- Second alternative `[A-Z]?[a-z]+[0-9]*`. -/
def branch2 : List Char → Option (List Char × List Char)
  | [] => none
  | c :: rest =>
      if isUpperCh c then
        let ls := rest.takeWhile isLowerCh
        if ls.isEmpty then none
        else
          let after := rest.drop ls.length
          let ds := after.takeWhile isDigitCh
          some (c :: (ls ++ ds), after.drop ds.length)
      else
        let ls := (c :: rest).takeWhile isLowerCh
        if ls.isEmpty then none
        else
          let after := (c :: rest).drop ls.length
          let ds := after.takeWhile isDigitCh
          some (ls ++ ds, after.drop ds.length)

/-- Third alternative `[A-Z]`. -/
def branch3 : List Char → Option (List Char × List Char)
  | [] => none
  | c :: rest => if isUpperCh c then some ([c], rest) else none

/-- Fourth alternative `[0-9]+`. -/
def branch4 (cs : List Char) : Option (List Char × List Char) :=
  let ds := cs.takeWhile isDigitCh
  if ds.isEmpty then none else some (ds, cs.drop ds.length)

/-- Regex match attempt at the current position: the four alternatives in
    order. -/
def matchWordAt (cs : List Char) : Option (List Char × List Char) :=
  match branch1 cs with
  | some r => some r
  | none =>
      match branch2 cs with
      | some r => some r
      | none =>
          match branch3 cs with
          | some r => some r
          | none => branch4 cs

/-- Global scan of `str.match(regex)`: at each position try a match; on
    success emit it and resume after it, otherwise advance one character.
    The fuel argument (instantiated with the list length, which bounds the
    number of scan steps) only makes the recursion structural. -/
def wordsFuel : Nat → List Char → List (List Char)
  | _, [] => []
  | 0, _ => []
  | fuel + 1, c :: rest =>
      match matchWordAt (c :: rest) with
      | some r => r.1 :: wordsFuel fuel r.2
      | none => wordsFuel fuel rest

/-- All regex matches of the `words` pattern in a character list. -/
def wordsL (cs : List Char) : List (List Char) :=
  wordsFuel cs.length cs

/-- Embedding of `words` (`src/src/transforms.ts`, lines 39-44) including
    the `matches ? ... : [str]` fallback when nothing matches. -/
def wordPieces (cs : List Char) : List (List Char) :=
  let ms := wordsL cs
  if ms.isEmpty then [cs] else ms

/-- String-level `words`. -/
def words (s : String) : List String :=
  (wordPieces s.toList).map String.mk

/-- Word capitalization of `toCamelCase`:
    `x.slice(0, 1).toUpperCase() + x.slice(1).toLowerCase()`. -/
def capWord : List Char → List Char
  | [] => []
  | c :: rest => upperCh c :: rest.map lowerCh

/-- Embedding of `toCamelCase` (`src/src/transforms.ts`, lines 46-51):
    words capitalized and joined, then the first character of the result
    lowercased. -/
def toCamelCaseL (cs : List Char) : List Char :=
  match ((wordPieces cs).map capWord).flatten with
  | [] => []
  | c :: rest => lowerCh c :: rest

/-- String-level `toCamelCase`. -/
def toCamelCase (s : String) : String :=
  String.mk (toCamelCaseL s.toList)

/-- Join of word lists with a separator character, as `Array.join`. -/
def joinSep (sep : Char) : List (List Char) → List Char
  | [] => []
  | [w] => w
  | w :: ws => w ++ sep :: joinSep sep ws

/-- Embedding of `toKebabCase` (lines 53-57): words lowercased and joined
    with `-`. -/
def toKebabCaseL (cs : List Char) : List Char :=
  joinSep '-' ((wordPieces cs).map (List.map lowerCh))

/-- String-level `toKebabCase`. -/
def toKebabCase (s : String) : String :=
  String.mk (toKebabCaseL s.toList)

/-- Embedding of `toSnakeCase` (lines 59-63): words lowercased and joined
    with `_`. -/
def toSnakeCase (s : String) : String :=
  String.mk (joinSep '_' ((wordPieces s.toList).map (List.map lowerCh)))

mutual

/-- Embedding of `deepTransformKeys` (`src/src/transforms.ts`, lines
    65-76): only mappings and sequences are entered (so `null` and the
    other leaves return unchanged); sequences transform element-wise;
    mapping keys are renamed and values recursed into. -/
def deepTransformKeys (t : JSONValue) (f : String → String) : JSONValue :=
  match t with
  | .arr items => .arr (deepTransformList items f)
  | .obj fields => .obj (deepTransformFields fields f)
  | other => other

/-- Element-wise transform of a JSON sequence. -/
def deepTransformList (items : List JSONValue) (f : String → String) :
    List JSONValue :=
  match items with
  | [] => []
  | t :: rest => deepTransformKeys t f :: deepTransformList rest f

/-- Field-wise transform of a JSON mapping. -/
def deepTransformFields (fields : List (String × JSONValue)) (f : String → String) :
    List (String × JSONValue) :=
  match fields with
  | [] => []
  | kv :: rest => (f kv.1, deepTransformKeys kv.2 f) :: deepTransformFields rest f

end

/-- Embedding of `kebabToCamel` (`src/src/transforms.ts`, lines 85-87). -/
def kebabToCamel (t : JSONValue) : JSONValue :=
  deepTransformKeys t toCamelCase

/-- Embedding of `camelToKebab` (lines 118-120). -/
def camelToKebab (t : JSONValue) : JSONValue :=
  deepTransformKeys t toKebabCase

/-- Split of a key before every uppercase letter, giving the intended word
    decomposition of a camelCase key.  The fuel argument (instantiated
    with the list length) only makes the recursion structural. -/
def splitCamelFuel : Nat → List Char → List (List Char)
  | _, [] => []
  | 0, _ => []
  | fuel + 1, c :: rest =>
      (c :: rest.takeWhile (fun x => !isUpperCh x))
        :: splitCamelFuel fuel (rest.dropWhile (fun x => !isUpperCh x))

/-- Word decomposition of a camelCase key. -/
def splitCamelWords (cs : List Char) : List (List Char) :=
  splitCamelFuel cs.length cs

/-- A nonempty run of lowercase letters followed by digits, the word shape
    `[a-z]+[0-9]*`. -/
def isLowerDigitWord (w : List Char) : Bool :=
  !(w.takeWhile isLowerCh).isEmpty && (w.dropWhile isLowerCh).all isDigitCh

/-- An uppercase letter followed by a nonempty lowercase run and digits,
    the word shape `[A-Z][a-z]+[0-9]*`. -/
def isMidWord : List Char → Bool
  | [] => false
  | c :: rest => isUpperCh c && isLowerDigitWord rest

/-- A single uppercase letter. -/
def isSingleUpper : List Char → Bool
  | [c] => isUpperCh c
  | _ => false

/-- Well-formedness of the words after the first one: every word is of the
    mid shape, except that the last may also be a single uppercase
    letter. -/
def isTailWords : List (List Char) → Bool
  | [] => true
  | [w] => isMidWord w || isSingleUpper w
  | w :: ws => isMidWord w && isTailWords ws

/-- The claim's key class ("uniformly cased, no digits adjacent to case
    boundaries"), made precise: the camelCase key decomposes into a first
    word `[a-z]+[0-9]*` and further words `[A-Z][a-z]+[0-9]*`, the last of
    which may instead be a single uppercase letter. -/
def goodKeyL (cs : List Char) : Bool :=
  match splitCamelWords cs with
  | [] => false
  | w0 :: ws => isLowerDigitWord w0 && isTailWords ws

/-- String-level key class. -/
def goodKey (s : String) : Bool :=
  goodKeyL s.toList

mutual

/-- A JSON tree all of whose mapping keys, at every nesting level, lie in
    the key class. -/
def goodTree : JSONValue → Bool
  | .arr items => goodTreeList items
  | .obj fields => goodTreeFields fields
  | _ => true

/-- Key class check across a JSON sequence. -/
def goodTreeList : List JSONValue → Bool
  | [] => true
  | t :: rest => goodTree t && goodTreeList rest

/-- Key class check across a JSON mapping. -/
def goodTreeFields : List (String × JSONValue) → Bool
  | [] => true
  | kv :: rest => goodKey kv.1 && goodTree kv.2 && goodTreeFields rest

end

theorem takeWhile_append_all (p : Char → Bool) (xs ys : List Char)
    (hx : ∀ c ∈ xs, p c = true)
    (hy : ys = [] ∨ ∃ c cs2, ys = c :: cs2 ∧ p c = false) :
    (xs ++ ys).takeWhile p = xs := by
  induction xs with
  | nil =>
      rcases hy with h | ⟨c, cs2, hys, hc⟩
      · simp [h]
      · simp [hys, List.takeWhile_cons, hc]
  | cons x xs ih =>
      have hx0 : p x = true := hx x (by simp)
      simp only [List.cons_append, List.takeWhile_cons, hx0, if_true]
      rw [ih (fun c hc => hx c (by simp [hc]))]

theorem dropWhile_append_all (p : Char → Bool) (xs ys : List Char)
    (hx : ∀ c ∈ xs, p c = true)
    (hy : ys = [] ∨ ∃ c cs2, ys = c :: cs2 ∧ p c = false) :
    (xs ++ ys).dropWhile p = ys := by
  induction xs with
  | nil =>
      rcases hy with h | ⟨c, cs2, hys, hc⟩
      · simp [h]
      · simp [hys, List.dropWhile_cons, hc]
  | cons x xs ih =>
      have hx0 : p x = true := hx x (by simp)
      simp only [List.cons_append, List.dropWhile_cons, hx0, if_true]
      rw [ih (fun c hc => hx c (by simp [hc]))]

/-- Position right after a word in a well-formed key or kebab string: the
    end of the input, an uppercase letter (next camel word), or the `-`
    separator. -/
def wordStop (rest : List Char) : Prop :=
  rest = [] ∨ ∃ c cs2, rest = c :: cs2 ∧ (isUpperCh c = true ∨ c = '-')

theorem wordStop_not_lower (rest : List Char) (h : wordStop rest) :
    rest = [] ∨ ∃ c cs2, rest = c :: cs2 ∧ isLowerCh c = false := by
  rcases h with h | ⟨c, cs2, hr, hc⟩
  · exact Or.inl h
  · refine Or.inr ⟨c, cs2, hr, ?_⟩
    rcases hc with hu | hd
    · exact not_lower_of_upper c hu
    · subst hd
      decide

theorem wordStop_not_digit (rest : List Char) (h : wordStop rest) :
    rest = [] ∨ ∃ c cs2, rest = c :: cs2 ∧ isDigitCh c = false := by
  rcases h with h | ⟨c, cs2, hr, hc⟩
  · exact Or.inl h
  · refine Or.inr ⟨c, cs2, hr, ?_⟩
    rcases hc with hu | hd
    · exact not_digit_of_upper c hu
    · subst hd
      decide

theorem headNotLower_digits_stop (ds rest : List Char)
    (hd : ∀ c ∈ ds, isDigitCh c = true) (hr : wordStop rest) :
    ds ++ rest = [] ∨ ∃ c cs2, ds ++ rest = c :: cs2 ∧ isLowerCh c = false := by
  cases ds with
  | nil =>
      simpa using wordStop_not_lower rest hr
  | cons d ds2 =>
      exact Or.inr ⟨d, ds2 ++ rest, by simp,
        not_lower_of_digit d (hd d (by simp))⟩

theorem branch1_none_of_head_not_upper (c : Char) (rest : List Char)
    (h : isUpperCh c = false) : branch1 (c :: rest) = none := by
  simp [branch1, List.takeWhile_cons, h, b1search]

theorem branch1_none_single (c : Char) (rest : List Char)
    (hr : rest = [] ∨ ∃ d cs2, rest = d :: cs2 ∧ isUpperCh d = false) :
    branch1 (c :: rest) = none := by
  have ht : (c :: rest).takeWhile isUpperCh = [] ∨
      (c :: rest).takeWhile isUpperCh = [c] := by
    by_cases hc : isUpperCh c = true
    · right
      rcases hr with h | ⟨d, cs2, hrest, hd⟩
      · simp [List.takeWhile_cons, hc, h]
      · simp [hrest, List.takeWhile_cons, hc, hd]
    · left
      simp [List.takeWhile_cons, Bool.not_eq_true _ ▸ hc]
  rcases ht with h | h <;> simp [branch1, h, b1search]

theorem branch2_F (as ds rest : List Char)
    (ha : as ≠ []) (hal : ∀ c ∈ as, isLowerCh c = true)
    (hd : ∀ c ∈ ds, isDigitCh c = true)
    (hr : wordStop rest) :
    branch2 (as ++ (ds ++ rest)) = some (as ++ ds, rest) := by
  cases as with
  | nil => exact absurd rfl ha
  | cons a0 as2 =>
      have h0 : isLowerCh a0 = true := hal a0 (by simp)
      have h0u : isUpperCh a0 = false := not_upper_of_lower a0 h0
      have htake : ((a0 :: as2) ++ (ds ++ rest)).takeWhile isLowerCh = a0 :: as2 :=
        takeWhile_append_all isLowerCh (a0 :: as2) (ds ++ rest) hal
          (headNotLower_digits_stop ds rest hd hr)
      have hdrop : ((a0 :: as2) ++ (ds ++ rest)).drop (a0 :: as2).length = ds ++ rest :=
        List.drop_left _ _
      have htake2 : (ds ++ rest).takeWhile isDigitCh = ds :=
        takeWhile_append_all isDigitCh ds rest hd (wordStop_not_digit rest hr)
      have hdrop2 : (ds ++ rest).drop ds.length = rest := List.drop_left _ _
      simp only [List.cons_append, branch2, h0u, Bool.false_eq_true, if_false]
      simp only [← List.cons_append, htake, hdrop, htake2, hdrop2]
      simp

theorem branch2_M (u : Char) (as ds rest : List Char)
    (hu : isUpperCh u = true)
    (ha : as ≠ []) (hal : ∀ c ∈ as, isLowerCh c = true)
    (hd : ∀ c ∈ ds, isDigitCh c = true)
    (hr : wordStop rest) :
    branch2 (u :: (as ++ (ds ++ rest))) = some (u :: (as ++ ds), rest) := by
  have htake : (as ++ (ds ++ rest)).takeWhile isLowerCh = as :=
    takeWhile_append_all isLowerCh as (ds ++ rest) hal
      (headNotLower_digits_stop ds rest hd hr)
  have hdrop : (as ++ (ds ++ rest)).drop as.length = ds ++ rest :=
    List.drop_left _ _
  have htake2 : (ds ++ rest).takeWhile isDigitCh = ds :=
    takeWhile_append_all isDigitCh ds rest hd (wordStop_not_digit rest hr)
  have hdrop2 : (ds ++ rest).drop ds.length = rest := List.drop_left _ _
  have hne : as.isEmpty = false := by
    cases as with
    | nil => exact absurd rfl ha
    | cons x xs => rfl
  simp only [branch2, hu, if_true, htake, hdrop, htake2, hdrop2, hne]
  simp

theorem branch2_none_upper_stuck (c : Char) (rest : List Char)
    (hc : isUpperCh c = true)
    (hr : rest = [] ∨ ∃ d cs2, rest = d :: cs2 ∧ isLowerCh d = false) :
    branch2 (c :: rest) = none := by
  have htake : rest.takeWhile isLowerCh = [] := by
    rcases hr with h | ⟨d, cs2, hrest, hd⟩
    · simp [h]
    · simp [hrest, List.takeWhile_cons, hd]
  simp [branch2, hc, htake]

theorem matchWordAt_F (as ds rest : List Char)
    (ha : as ≠ []) (hal : ∀ c ∈ as, isLowerCh c = true)
    (hd : ∀ c ∈ ds, isDigitCh c = true)
    (hr : wordStop rest) :
    matchWordAt (as ++ (ds ++ rest)) = some (as ++ ds, rest) := by
  cases as with
  | nil => exact absurd rfl ha
  | cons a0 as2 =>
      have h0u : isUpperCh a0 = false :=
        not_upper_of_lower a0 (hal a0 (by simp))
      have hb1 : branch1 ((a0 :: as2) ++ (ds ++ rest)) = none := by
        simpa using branch1_none_of_head_not_upper a0 (as2 ++ (ds ++ rest)) h0u
      have hb2 := branch2_F (a0 :: as2) ds rest ha hal hd hr
      simp only [matchWordAt, hb1, hb2]

theorem matchWordAt_M (u : Char) (as ds rest : List Char)
    (hu : isUpperCh u = true)
    (ha : as ≠ []) (hal : ∀ c ∈ as, isLowerCh c = true)
    (hd : ∀ c ∈ ds, isDigitCh c = true)
    (hr : wordStop rest) :
    matchWordAt (u :: (as ++ (ds ++ rest))) = some (u :: (as ++ ds), rest) := by
  have hb1 : branch1 (u :: (as ++ (ds ++ rest))) = none := by
    apply branch1_none_single
    cases as with
    | nil => exact absurd rfl ha
    | cons a0 as2 =>
        exact Or.inr ⟨a0, as2 ++ (ds ++ rest), by simp,
          not_upper_of_lower a0 (hal a0 (by simp))⟩
  have hb2 := branch2_M u as ds rest hu ha hal hd hr
  simp only [matchWordAt, hb1, hb2]

theorem matchWordAt_S_end (u : Char) (hu : isUpperCh u = true) :
    matchWordAt [u] = some ([u], []) := by
  have hb1 : branch1 [u] = none := branch1_none_single u [] (Or.inl rfl)
  have hb2 : branch2 [u] = none := branch2_none_upper_stuck u [] hu (Or.inl rfl)
  simp [matchWordAt, hb1, hb2, branch3, hu]

theorem matchWordAt_dash (rest : List Char) :
    matchWordAt ('-' :: rest) = none := by
  have hu : isUpperCh '-' = false := by decide
  have hb1 : branch1 ('-' :: rest) = none :=
    branch1_none_of_head_not_upper '-' rest hu
  have hl : isLowerCh '-' = false := by decide
  have hdg : isDigitCh '-' = false := by decide
  simp [matchWordAt, hb1, branch2, branch3, branch4, hu, hl, hdg,
    List.takeWhile_cons]

theorem wordsFuel_nil (fuel : Nat) : wordsFuel fuel [] = [] := by
  cases fuel <;> rfl

theorem lowerDigit_decomp (w : List Char) (h : isLowerDigitWord w = true) :
    ∃ as ds, w = as ++ ds ∧ as ≠ [] ∧ (∀ c ∈ as, isLowerCh c = true)
      ∧ (∀ c ∈ ds, isDigitCh c = true) := by
  simp only [isLowerDigitWord, Bool.and_eq_true, Bool.not_eq_true',
    List.isEmpty_eq_false, List.all_eq_true] at h
  refine ⟨w.takeWhile isLowerCh, w.dropWhile isLowerCh,
    (List.takeWhile_append_dropWhile ..).symm,
    by simpa using h.1, ?_, by simpa using h.2⟩
  intro c hc
  exact List.mem_takeWhile_imp hc

theorem isLowerDigitWord_of_parts (as ds : List Char)
    (ha : as ≠ []) (hal : ∀ c ∈ as, isLowerCh c = true)
    (hd : ∀ c ∈ ds, isDigitCh c = true) :
    isLowerDigitWord (as ++ ds) = true := by
  have hy : ds = [] ∨ ∃ c cs2, ds = c :: cs2 ∧ isLowerCh c = false := by
    cases ds with
    | nil => exact Or.inl rfl
    | cons d ds2 =>
        exact Or.inr ⟨d, ds2, rfl, not_lower_of_digit d (hd d (by simp))⟩
  have htake : (as ++ ds).takeWhile isLowerCh = as :=
    takeWhile_append_all isLowerCh as ds hal hy
  have hdrop : (as ++ ds).dropWhile isLowerCh = ds :=
    dropWhile_append_all isLowerCh as ds hal hy
  simp only [isLowerDigitWord, htake, hdrop, Bool.and_eq_true,
    Bool.not_eq_true', List.isEmpty_eq_false, List.all_eq_true]
  exact ⟨ha, fun c hc => by simpa using hd c hc⟩

theorem midWord_decomp (w : List Char) (h : isMidWord w = true) :
    ∃ u as ds, w = u :: (as ++ ds) ∧ isUpperCh u = true ∧ as ≠ []
      ∧ (∀ c ∈ as, isLowerCh c = true) ∧ (∀ c ∈ ds, isDigitCh c = true) := by
  cases w with
  | nil => simp [isMidWord] at h
  | cons u tail =>
      simp only [isMidWord, Bool.and_eq_true] at h
      obtain ⟨as, ds, htail, ha, hal, hd⟩ := lowerDigit_decomp tail h.2
      exact ⟨u, as, ds, by rw [htail], h.1, ha, hal, hd⟩

theorem singleUpper_decomp (w : List Char) (h : isSingleUpper w = true) :
    ∃ u, w = [u] ∧ isUpperCh u = true := by
  cases w with
  | nil => simp [isSingleUpper] at h
  | cons u tail =>
      cases tail with
      | nil => exact ⟨u, rfl, h⟩
      | cons x xs => simp [isSingleUpper] at h

theorem tailWords_mem (ws : List (List Char)) (h : isTailWords ws = true) :
    ∀ w ∈ ws, isMidWord w = true ∨ isSingleUpper w = true := by
  induction ws with
  | nil => intro w hw; simp at hw
  | cons w2 ws2 ih =>
      intro w hw
      cases ws2 with
      | nil =>
          simp only [List.mem_singleton] at hw
          subst hw
          simpa [isTailWords, Bool.or_eq_true] using h
      | cons w3 ws3 =>
          simp only [isTailWords, Bool.and_eq_true] at h
          rcases List.mem_cons.mp hw with rfl | hw2
          · exact Or.inl h.1
          · exact ih h.2 w hw2

theorem tailWords_flatten_stop (ws : List (List Char)) (h : isTailWords ws = true) :
    wordStop ws.flatten := by
  cases ws with
  | nil => exact Or.inl rfl
  | cons w2 ws2 =>
      have hw2 := tailWords_mem (w2 :: ws2) h w2 (by simp)
      rcases hw2 with hm | hs
      · obtain ⟨u, as, ds, hw, hu, _, _, _⟩ := midWord_decomp w2 hm
        exact Or.inr ⟨u, (as ++ ds) ++ ws2.flatten, by simp [hw], Or.inl hu⟩
      · obtain ⟨u, hw, hu⟩ := singleUpper_decomp w2 hs
        exact Or.inr ⟨u, ws2.flatten, by simp [hw], Or.inl hu⟩

theorem isTailWords_of_tail (w : List Char) (ws : List (List Char))
    (h : isTailWords (w :: ws) = true) : isTailWords ws = true := by
  cases ws with
  | nil => rfl
  | cons w2 ws2 =>
      simp only [isTailWords, Bool.and_eq_true] at h
      exact h.2

theorem wordsFuel_tailSeq (ws : List (List Char)) :
    ∀ fuel : Nat, isTailWords ws = true → ws.flatten.length ≤ fuel →
    wordsFuel fuel ws.flatten = ws := by
  induction ws with
  | nil => intro fuel _ _; exact wordsFuel_nil fuel
  | cons w ws2 ih =>
      intro fuel h hf
      have hw : isMidWord w = true ∨ isSingleUpper w = true :=
        tailWords_mem (w :: ws2) h w (by simp)
      have hws2 : isTailWords ws2 = true := isTailWords_of_tail w ws2 h
      have hstop : wordStop ws2.flatten := tailWords_flatten_stop ws2 hws2
      rcases hw with hm | hs
      · obtain ⟨u, as, ds, hwd, hu, ha, hal, hd⟩ := midWord_decomp w hm
        have hmat : matchWordAt (u :: (as ++ (ds ++ ws2.flatten)))
            = some (u :: (as ++ ds), ws2.flatten) :=
          matchWordAt_M u as ds ws2.flatten hu ha hal hd hstop
        have hflat : (w :: ws2).flatten = u :: (as ++ (ds ++ ws2.flatten)) := by
          simp [hwd, List.flatten_cons]
        rw [hflat]
        have hlen : (u :: (as ++ (ds ++ ws2.flatten))).length ≤ fuel := by
          rw [← hflat]; exact hf
        cases fuel with
        | zero => simp at hlen
        | succ f =>
            rw [wordsFuel, hmat]
            dsimp only
            have hf2 : ws2.flatten.length ≤ f := by
              simp only [List.length_cons, List.length_append] at hlen
              omega
            rw [ih f hws2 hf2, ← hwd]
      · obtain ⟨u, hwd, hu⟩ := singleUpper_decomp w hs
        have hws2nil : ws2 = [] := by
          cases ws2 with
          | nil => rfl
          | cons w3 ws3 =>
              simp only [isTailWords, Bool.and_eq_true] at h
              rw [hwd] at h
              simp [isMidWord, isLowerDigitWord] at h
        subst hws2nil
        have hflat : ([w] : List (List Char)).flatten = [u] := by simp [hwd]
        rw [hflat]
        have hlen : (1 : Nat) ≤ fuel := by
          rw [hflat] at hf
          simpa using hf
        cases fuel with
        | zero => omega
        | succ f =>
            rw [wordsFuel, matchWordAt_S_end u hu]
            dsimp only
            rw [wordsFuel_nil, hwd]

theorem wordsFuel_keySeq (w0 : List Char) (ws : List (List Char)) (fuel : Nat)
    (h0 : isLowerDigitWord w0 = true) (hws : isTailWords ws = true)
    (hf : (w0 ++ ws.flatten).length ≤ fuel) :
    wordsFuel fuel (w0 ++ ws.flatten) = w0 :: ws := by
  obtain ⟨as, ds, hwd, ha, hal, hd⟩ := lowerDigit_decomp w0 h0
  have hstop : wordStop ws.flatten := tailWords_flatten_stop ws hws
  have hmat : matchWordAt (as ++ (ds ++ ws.flatten)) = some (as ++ ds, ws.flatten) :=
    matchWordAt_F as ds ws.flatten ha hal hd hstop
  have hflat : w0 ++ ws.flatten = as ++ (ds ++ ws.flatten) := by simp [hwd]
  rw [hflat]
  cases as with
  | nil => exact absurd rfl ha
  | cons a0 as2 =>
      have hlen : ((a0 :: as2) ++ (ds ++ ws.flatten)).length ≤ fuel := by
        rw [← hflat]; exact hf
      cases fuel with
      | zero => simp at hlen
      | succ f =>
          rw [List.cons_append, wordsFuel, ← List.cons_append, hmat]
          dsimp only
          have hf2 : ws.flatten.length ≤ f := by
            simp only [List.cons_append, List.length_cons, List.length_append] at hlen
            omega
          rw [wordsFuel_tailSeq ws f hws hf2, ← hwd]

theorem wordsFuel_kebabSeq (vs : List (List Char)) :
    ∀ fuel : Nat, (∀ v ∈ vs, isLowerDigitWord v = true) →
    (joinSep '-' vs).length ≤ fuel →
    wordsFuel fuel (joinSep '-' vs) = vs := by
  induction vs with
  | nil => intro fuel _ _; exact wordsFuel_nil fuel
  | cons v vs2 ih =>
      intro fuel hall hf
      obtain ⟨as, ds, hvd, ha, hal, hd⟩ := lowerDigit_decomp v (hall v (by simp))
      cases vs2 with
      | nil =>
          have hjoin : joinSep '-' [v] = as ++ (ds ++ []) := by simp [joinSep, hvd]
          have hmat : matchWordAt (as ++ (ds ++ [])) = some (as ++ ds, []) :=
            matchWordAt_F as ds [] ha hal hd (Or.inl rfl)
          rw [hjoin]
          cases as with
          | nil => exact absurd rfl ha
          | cons a0 as2 =>
              have hlen : ((a0 :: as2) ++ (ds ++ [])).length ≤ fuel := by
                rw [← hjoin]; exact hf
              cases fuel with
              | zero => simp at hlen
              | succ f =>
                  rw [List.cons_append, wordsFuel, ← List.cons_append, hmat]
                  dsimp only
                  rw [wordsFuel_nil, ← hvd]
      | cons v2 vs3 =>
          have hjoin : joinSep '-' (v :: v2 :: vs3)
              = as ++ (ds ++ ('-' :: joinSep '-' (v2 :: vs3))) := by
            simp [joinSep, hvd]
          have hstop : wordStop ('-' :: joinSep '-' (v2 :: vs3)) :=
            Or.inr ⟨'-', joinSep '-' (v2 :: vs3), rfl, Or.inr rfl⟩
          have hmat := matchWordAt_F as ds ('-' :: joinSep '-' (v2 :: vs3)) ha hal hd hstop
          rw [hjoin]
          cases as with
          | nil => exact absurd rfl ha
          | cons a0 as2 =>
              have hlen : ((a0 :: as2) ++ (ds ++ ('-' :: joinSep '-' (v2 :: vs3)))).length
                  ≤ fuel := by
                rw [← hjoin]; exact hf
              cases fuel with
              | zero => simp at hlen
              | succ f =>
                  rw [List.cons_append, wordsFuel, ← List.cons_append, hmat]
                  dsimp only
                  have hf2 : ('-' :: joinSep '-' (v2 :: vs3)).length ≤ f := by
                    simp only [List.cons_append, List.length_cons, List.length_append] at hlen ⊢
                    omega
                  cases f with
                  | zero => simp at hf2
                  | succ f2 =>
                      rw [wordsFuel, matchWordAt_dash]
                      dsimp only
                      have hf3 : (joinSep '-' (v2 :: vs3)).length ≤ f2 := by
                        simpa using hf2
                      rw [ih f2 (fun w hw => hall w (by simp [hw])) hf3, ← hvd]

theorem splitCamel_flatten : ∀ (fuel : Nat) (cs : List Char), cs.length ≤ fuel →
    (splitCamelFuel fuel cs).flatten = cs := by
  intro fuel
  induction fuel with
  | zero =>
      intro cs h
      have : cs = [] := List.eq_nil_of_length_eq_zero (by omega)
      subst this
      rfl
  | succ f ih =>
      intro cs h
      cases cs with
      | nil => rfl
      | cons c rest =>
          have hd : (rest.dropWhile (fun x => !isUpperCh x)).length ≤ f := by
            have := length_dropWhile_le (fun x => !isUpperCh x) rest
            simp only [List.length_cons] at h
            omega
          simp only [splitCamelFuel, List.flatten_cons, ih _ hd]
          simp [List.takeWhile_append_dropWhile]

theorem map_lowerCh_id (l : List Char) (h : ∀ c ∈ l, lowerCh c = c) :
    l.map lowerCh = l := by
  induction l with
  | nil => rfl
  | cons c rest ih =>
      simp only [List.map_cons, h c (by simp), ih (fun x hx => h x (by simp [hx]))]

theorem lowerCh_id_of_lowerDigit (w : List Char) (h : isLowerDigitWord w = true) :
    ∀ c ∈ w, lowerCh c = c := by
  obtain ⟨as, ds, rfl, _, hal, hd⟩ := lowerDigit_decomp w h
  intro c hc
  rcases List.mem_append.mp hc with hc | hc
  · exact lowerCh_of_lower c (hal c hc)
  · exact lowerCh_of_digit c (hd c hc)

theorem map_lowerCh_lowerDigit (w : List Char) (h : isLowerDigitWord w = true) :
    w.map lowerCh = w :=
  map_lowerCh_id w (lowerCh_id_of_lowerDigit w h)

theorem lowered_mid_isLowerDigit (w : List Char) (h : isMidWord w = true) :
    isLowerDigitWord (w.map lowerCh) = true := by
  obtain ⟨u, as, ds, rfl, hu, ha, hal, hd⟩ := midWord_decomp w h
  have hmap : (u :: (as ++ ds)).map lowerCh = (lowerCh u :: as) ++ ds := by
    have h1 : (as ++ ds).map lowerCh = as ++ ds :=
      map_lowerCh_id _ (fun c hc => by
        rcases List.mem_append.mp hc with hc | hc
        · exact lowerCh_of_lower c (hal c hc)
        · exact lowerCh_of_digit c (hd c hc))
    simp [h1]
  rw [hmap]
  exact isLowerDigitWord_of_parts (lowerCh u :: as) ds (by simp)
    (fun c hc => by
      rcases List.mem_cons.mp hc with rfl | hc
      · exact isLowerCh_lowerCh u hu
      · exact hal c hc)
    hd

theorem lowered_single_isLowerDigit (w : List Char) (h : isSingleUpper w = true) :
    isLowerDigitWord (w.map lowerCh) = true := by
  obtain ⟨u, rfl, hu⟩ := singleUpper_decomp w h
  have : ([u].map lowerCh) = [lowerCh u] ++ [] := by simp
  rw [this]
  exact isLowerDigitWord_of_parts [lowerCh u] [] (by simp)
    (fun c hc => by
      rcases List.mem_singleton.mp hc with rfl
      exact isLowerCh_lowerCh u hu)
    (fun c hc => by simp at hc)

theorem capWord_map_lowerCh_mid (w : List Char) (h : isMidWord w = true) :
    capWord (w.map lowerCh) = w := by
  obtain ⟨u, as, ds, rfl, hu, ha, hal, hd⟩ := midWord_decomp w h
  have h1 : (as ++ ds).map lowerCh = as ++ ds :=
    map_lowerCh_id _ (fun c hc => by
      rcases List.mem_append.mp hc with hc | hc
      · exact lowerCh_of_lower c (hal c hc)
      · exact lowerCh_of_digit c (hd c hc))
  simp only [List.map_cons, capWord, h1, upperCh_lowerCh u hu]

theorem capWord_map_lowerCh_single (w : List Char) (h : isSingleUpper w = true) :
    capWord (w.map lowerCh) = w := by
  obtain ⟨u, rfl, hu⟩ := singleUpper_decomp w h
  simp only [List.map_cons, List.map_nil, capWord, upperCh_lowerCh u hu]

theorem map_eq_self_of {α : Type} (l : List α) (g : α → α) (h : ∀ x ∈ l, g x = x) :
    l.map g = l := by
  induction l with
  | nil => rfl
  | cons x rest ih =>
      simp only [List.map_cons, h x (by simp), ih (fun y hy => h y (by simp [hy]))]

theorem toCamelCase_toKebabCase_key (cs : List Char) (h : goodKeyL cs = true) :
    toCamelCaseL (toKebabCaseL cs) = cs := by
  cases hsplit : splitCamelWords cs with
  | nil =>
      rw [goodKeyL, hsplit] at h
      simp at h
  | cons w0 ws =>
      rw [goodKeyL, hsplit, Bool.and_eq_true] at h
      obtain ⟨h0, hws⟩ := h
      have hflat : w0 ++ ws.flatten = cs := by
        have hsf := splitCamel_flatten cs.length cs (Nat.le_refl _)
        rw [splitCamelWords] at hsplit
        rw [hsplit] at hsf
        simpa [List.flatten_cons] using hsf
      have hwordsL : wordsL cs = w0 :: ws := by
        rw [wordsL, ← hflat]
        exact wordsFuel_keySeq w0 ws _ h0 hws (Nat.le_refl _)
      have hpieces : wordPieces cs = w0 :: ws := by
        simp [wordPieces, hwordsL]
      have hkebab : toKebabCaseL cs = joinSep '-' ((w0 :: ws).map (List.map lowerCh)) := by
        rw [toKebabCaseL, hpieces]
      have hallv : ∀ v ∈ (w0 :: ws).map (List.map lowerCh), isLowerDigitWord v = true := by
        intro v hv
        obtain ⟨w, hw, rfl⟩ := List.mem_map.mp hv
        rcases List.mem_cons.mp hw with rfl | hw2
        · rw [map_lowerCh_lowerDigit w h0]
          exact h0
        · rcases tailWords_mem ws hws w hw2 with hm | hs
          · exact lowered_mid_isLowerDigit w hm
          · exact lowered_single_isLowerDigit w hs
      have hwords2 : wordsL (toKebabCaseL cs) = (w0 :: ws).map (List.map lowerCh) := by
        rw [wordsL, hkebab]
        exact wordsFuel_kebabSeq _ _ hallv (Nat.le_refl _)
      have hpieces2 : wordPieces (toKebabCaseL cs)
          = (w0 :: ws).map (List.map lowerCh) := by
        simp [wordPieces, hwords2]
      obtain ⟨as, ds, hw0, ha, hal, hd⟩ := lowerDigit_decomp w0 h0
      obtain ⟨a0, as2, rfl⟩ : ∃ a0 as2, as = a0 :: as2 := by
        cases as with
        | nil => exact absurd rfl ha
        | cons a0 as2 => exact ⟨a0, as2, rfl⟩
      have ha0 : isLowerCh a0 = true := hal a0 (by simp)
      have hw0map : w0.map lowerCh = w0 := map_lowerCh_lowerDigit w0 h0
      have hcap0 : capWord (w0.map lowerCh) = upperCh a0 :: (as2 ++ ds) := by
        rw [hw0map, hw0]
        simp only [List.cons_append, capWord]
        congr 1
        exact map_lowerCh_id _ (fun c hc => by
          rcases List.mem_append.mp hc with hc | hc
          · exact lowerCh_of_lower c (hal c (by simp [hc]))
          · exact lowerCh_of_digit c (hd c hc))
      have hcaptail : ws.map (fun w => capWord (w.map lowerCh)) = ws := by
        apply map_eq_self_of
        intro w hw
        rcases tailWords_mem ws hws w hw with hm | hs
        · exact capWord_map_lowerCh_mid w hm
        · exact capWord_map_lowerCh_single w hs
      rw [toCamelCaseL, hpieces2]
      simp only [List.map_cons, List.map_map]
      rw [hcap0]
      have : (List.map (capWord ∘ List.map lowerCh) ws) = ws := by
        simpa [Function.comp] using hcaptail
      rw [this]
      simp only [List.flatten_cons, List.cons_append]
      rw [lowerCh_upperCh a0 ha0]
      rw [← hflat, hw0]
      simp

theorem toCamelCase_toKebabCase (s : String) (h : goodKey s = true) :
    toCamelCase (toKebabCase s) = s := by
  show String.mk (toCamelCaseL (toKebabCaseL s.toList)) = s
  rw [toCamelCase_toKebabCase_key s.toList h]
  rfl

mutual

theorem roundTripTree : ∀ t : JSONValue, goodTree t = true →
    deepTransformKeys (deepTransformKeys t toKebabCase) toCamelCase = t
  | .null, _ => rfl
  | .bool _, _ => rfl
  | .num _, _ => rfl
  | .str _, _ => rfl
  | .arr items, h => by
      have hl : goodTreeList items = true := h
      show JSONValue.arr (deepTransformList (deepTransformList items toKebabCase) toCamelCase)
          = JSONValue.arr items
      rw [roundTripList items hl]
  | .obj fields, h => by
      have hf : goodTreeFields fields = true := h
      show JSONValue.obj (deepTransformFields (deepTransformFields fields toKebabCase) toCamelCase)
          = JSONValue.obj fields
      rw [roundTripFields fields hf]

theorem roundTripList : ∀ items : List JSONValue, goodTreeList items = true →
    deepTransformList (deepTransformList items toKebabCase) toCamelCase = items
  | [], _ => rfl
  | t :: rest, h => by
      have h2 : goodTree t = true ∧ goodTreeList rest = true := by
        simpa [goodTreeList, Bool.and_eq_true] using h
      show deepTransformKeys (deepTransformKeys t toKebabCase) toCamelCase
            :: deepTransformList (deepTransformList rest toKebabCase) toCamelCase
          = t :: rest
      rw [roundTripTree t h2.1, roundTripList rest h2.2]

theorem roundTripFields : ∀ fields : List (String × JSONValue),
    goodTreeFields fields = true →
    deepTransformFields (deepTransformFields fields toKebabCase) toCamelCase = fields
  | [], _ => rfl
  | kv :: rest, h => by
      have h2 : goodKey kv.1 = true ∧ goodTree kv.2 = true
          ∧ goodTreeFields rest = true := by
        simpa [goodTreeFields, Bool.and_eq_true, and_assoc] using h
      show (toCamelCase (toKebabCase kv.1),
              deepTransformKeys (deepTransformKeys kv.2 toKebabCase) toCamelCase)
            :: deepTransformFields (deepTransformFields rest toKebabCase) toCamelCase
          = kv :: rest
      rw [toCamelCase_toKebabCase kv.1 h2.1, roundTripTree kv.2 h2.2.1,
        roundTripFields rest h2.2.2]

end

theorem deepTransformList_eq_map (items : List JSONValue) (f : String → String) :
    deepTransformList items f = items.map (fun t => deepTransformKeys t f) := by
  induction items with
  | nil => rfl
  | cons t rest ih => simp [deepTransformList, ih]

theorem deepTransformFields_eq_map (fields : List (String × JSONValue))
    (f : String → String) :
    deepTransformFields fields f
      = fields.map (fun kv => (f kv.1, deepTransformKeys kv.2 f)) := by
  induction fields with
  | nil => rfl
  | cons kv rest ih => simp [deepTransformFields, ih]

/-- Claim C8: on trees whose mapping keys are uniformly cased camelCase
    keys with no digits adjacent to case boundaries (the `goodTree` class),
    the deep case transforms are mutual inverses:
    `kebabToCamel (camelToKebab x) = x`, reconstructing the key set at
    every nesting level and preserving all values; moreover
    `deepTransformKeys` for any key function transforms sequences
    element-wise preserving order and length, leaves every non-mapping
    leaf (null, boolean, number, string) unchanged, and renames only the
    keys of mappings. -/
theorem c8_case_transform_round_trip :
    (∀ t : JSONValue, goodTree t = true → kebabToCamel (camelToKebab t) = t)
    ∧ (∀ (items : List JSONValue) (f : String → String),
        deepTransformKeys (.arr items) f
          = .arr (items.map (fun t => deepTransformKeys t f)))
    ∧ (∀ f : String → String, deepTransformKeys .null f = .null)
    ∧ (∀ (b : Bool) (f : String → String), deepTransformKeys (.bool b) f = .bool b)
    ∧ (∀ (n : Int) (f : String → String), deepTransformKeys (.num n) f = .num n)
    ∧ (∀ (s : String) (f : String → String), deepTransformKeys (.str s) f = .str s)
    ∧ (∀ (fields : List (String × JSONValue)) (f : String → String),
        deepTransformKeys (.obj fields) f
          = .obj (fields.map (fun kv => (f kv.1, deepTransformKeys kv.2 f)))) := by
  refine ⟨?_, ?_, fun f => rfl, fun b f => rfl, fun n f => rfl, fun s f => rfl, ?_⟩
  · intro t h
    exact roundTripTree t h
  · intro items f
    show JSONValue.arr (deepTransformList items f) = _
    rw [deepTransformList_eq_map]
  · intro fields f
    show JSONValue.obj (deepTransformFields fields f) = _
    rw [deepTransformFields_eq_map]

/-- Witness for C8: the round-trip part applied to a concrete nested tree
    with camelCase keys, an array of mappings and non-mapping leaves. -/
theorem c8_case_transform_round_trip_witness :
    kebabToCamel (camelToKebab (JSONValue.obj
      [("firstName", .obj [("homeAddress", .str "123 Main St")]),
       ("items", .arr [.obj [("someProp", .bool true)], .num 3, .null]),
       ("b", .num 2)]))
    = JSONValue.obj
      [("firstName", .obj [("homeAddress", .str "123 Main St")]),
       ("items", .arr [.obj [("someProp", .bool true)], .num 3, .null]),
       ("b", .num 2)] :=
  c8_case_transform_round_trip.1 _ (by decide)

end MakeService
